import Mathlib

/-!
Verification of the kg-gen deduplication and clustering engine.

This file gives a shallow embedding of the deduplication code
(`src/kg_gen/deduplication.py`), the deterministic graph dedup step
(`src/kg_gen/steps/_3_deduplicate.py`) and the LLM-assisted clustering
engine (`src/kg_gen_lc/lc_steps/cluster_graph.py`), and proves or refutes
the stated properties of those functions.

Labels are modelled as `List Char` (Python `str`).  Python sets that are
only used for membership, iteration and comprehension are modelled as
duplicate-free lists; Python dicts as association lists in key-insertion
order where a repeated assignment overwrites the stored value in place.
The LLM oracle is modelled as four functions indexed by a call counter,
each returning `Except Unit (Option answer)`: `.error ()` models a raised
exception inside the runner call, `.ok none` models an unparseable
response (`predict_json` returning `None`), and `.ok (some a)` a parsed
answer.  The `md5` digest of `deduplication.py` is modelled as an
arbitrary function on normalized labels; claims that need collision
freedom take injectivity of that function as a hypothesis.
-/

set_option maxHeartbeats 1000000

namespace KgGen

abbrev Label := List Char

/-! ## Normalizer (`EntityDeduplicator._normalize`) -/

/-- Python `str.split()`: split on runs of whitespace, dropping empty parts.
The accumulator holds the current word reversed. -/
def splitWSAux : List Char → List Char → List (List Char)
  | [], acc => if acc = [] then [] else [acc.reverse]
  | c :: rest, acc =>
    if c.isWhitespace then
      (if acc = [] then splitWSAux rest [] else acc.reverse :: splitWSAux rest [])
    else splitWSAux rest (c :: acc)

def splitWS (l : List Char) : List (List Char) := splitWSAux l []

/-- Python `" ".join(words)`. -/
def joinSpaces (ws : List (List Char)) : List Char := List.intercalate [' '] ws

structure DedupOptions where
  normalize_case : Bool
  normalize_whitespace : Bool
deriving DecidableEq, Repr

def defaultOpts : DedupOptions := ⟨true, true⟩

/-- Model of `EntityDeduplicator._normalize`: whitespace normalization first
(collapse runs, trim), then lowercasing. -/
def normalize (opts : DedupOptions) (text : Label) : Label :=
  let t := if opts.normalize_whitespace then joinSpaces (splitWS text) else text
  if opts.normalize_case then t.map Char.toLower else t

/-! ## Association-list helpers (Python `dict`) -/

/-- Lookup in an association list (first matching key). -/
def assocFind : List (Label × Label) → Label → Option Label
  | [], _ => none
  | (k, v) :: rest, key => if k = key then some v else assocFind rest key

/-- Python `d[k] = v`: overwrite the value in place if the key is present,
otherwise append the binding. -/
def upsert {β : Type} : List (Label × β) → Label → β → List (Label × β)
  | [], k, v => [(k, v)]
  | (k', v') :: rest, k, v =>
    if k' = k then (k', v) :: rest else (k', v') :: upsert rest k v

/-! ## `EntityDeduplicator._deduplicate_deterministic` -/

structure DetState where
  seen : List (Label × Label)
  uniqueItems : List Label
  dupMap : List (Label × Label)
deriving DecidableEq, Repr

/-- One iteration of the `for item in items` loop of
`_deduplicate_deterministic`.  `hash` models the configured digest applied
to the utf-8 encoding of the normalized label. -/
def detStep (hash : Label → Label) (opts : DedupOptions) (st : DetState)
    (item : Label) : DetState :=
  let h := hash (normalize opts item)
  match assocFind st.seen h with
  | some canonical => { st with dupMap := upsert st.dupMap item canonical }
  | none =>
      { st with seen := st.seen ++ [(h, item)],
                uniqueItems := st.uniqueItems ++ [item] }

/-- Model of `EntityDeduplicator._deduplicate_deterministic`:
returns `(unique_items, duplicate_map)`. -/
def dedupDet (hash : Label → Label) (opts : DedupOptions) (items : List Label) :
    List Label × List (Label × Label) :=
  let st := items.foldl (detStep hash opts) ⟨[], [], []⟩
  (st.uniqueItems, st.dupMap)

/-! ## `EntityDeduplicator.deduplicate` and the convenience function -/

/-- Model of `DeduplicationMethod`, with an extra constructor modelling any Python
value outside the enum (the `else` arm of `deduplicate`). -/
inductive DeduplicationMethod
  | deterministic
  | semantic
  | other
deriving DecidableEq, Repr

/-- Model of `EntityDeduplicator.deduplicate`: dispatch on the configured method;
`_deduplicate_semantic` is the placeholder returning `(items, {})`;
an unknown method raises `ValueError`. -/
def deduplicate (method : DeduplicationMethod) (hash : Label → Label)
    (opts : DedupOptions) (items : List Label) :
    Except String (List Label × List (Label × Label)) :=
  match method with
  | .deterministic => .ok (dedupDet hash opts items)
  | .semantic => .ok (items, [])
  | .other => .error "Unknown deduplication method"

/-- Model of `DeduplicationMethod(method)` on a string: raises on unknown values. -/
def methodOfString (s : Label) : Except String DeduplicationMethod :=
  if s = "deterministic".toList then .ok .deterministic
  else if s = "semantic".toList then .ok .semantic
  else .error "invalid DeduplicationMethod"

/-- Model of `deduplicate_entities` convenience function. -/
def deduplicate_entities (method : Label) (hash : Label → Label)
    (opts : DedupOptions) (items : List Label) :
    Except String (List Label × List (Label × Label)) :=
  match methodOfString method with
  | .error e => .error e
  | .ok m => deduplicate m hash opts items

/-! ## Graph data model (`kg_gen.models.Graph`) -/

/-- The Graph value object.  `entities`, `edges` and `relations` are Python
sets, modelled as lists used up to membership; `entity_clusters` and
`edge_clusters` are dicts representative → member set, modelled as
association lists in insertion order. -/
structure Graph where
  entities : List Label
  edges : List Label
  relations : List (Label × Label × Label)
  entity_clusters : List (Label × List Label)
  edge_clusters : List (Label × List Label)
deriving DecidableEq, Repr

/-! ## `_apply_deterministic_deduplication_to_graph` -/

/-- Model of `_apply_deterministic_deduplication_to_graph` of
`steps/_3_deduplicate.py`: dedup entities and edges with the
deterministic method and default options, map each relation component
through the duplicate maps (`dict.get(x, x)`), and keep a relabeled
triple only if all three canonical components are in the deduplicated
sets. -/
def applyDetDedupGraph (hash : Label → Label) (g : Graph) : Graph :=
  let ents := dedupDet hash defaultOpts g.entities
  let eds := dedupDet hash defaultOpts g.edges
  let rels := g.relations.filterMap (fun r =>
    let cs := (assocFind ents.2 r.1).getD r.1
    let cp := (assocFind eds.2 r.2.1).getD r.2.1
    let co := (assocFind ents.2 r.2.2).getD r.2.2
    if cs ∈ ents.1 ∧ cp ∈ eds.1 ∧ co ∈ ents.1 then some (cs, cp, co) else none)
  ⟨ents.1, eds.1, rels, g.entity_clusters, g.edge_clusters⟩

/-! ## `dedup_cluster_graph` orchestration -/

/-- Model of `DeduplicationStrategy`, with an extra constructor modelling any value
outside the enum (the `else` arm of `dedup_cluster_graph`). -/
inductive DeduplicationStrategy
  | deterministic
  | semantic_hash
  | both
  | other
deriving DecidableEq, Repr

def emptyGraph : Graph := ⟨[], [], [], [], []⟩

/-- Model of `dedup_cluster_graph` of `steps/_3_deduplicate.py`.

Modelled from the spec: the semantic-hash collaborator
(`kg_gen.utils.deduplicate.deduplicate_graph`) and the LLM clustering
step (`kg_gen.utils.llm_deduplicate.LLMDeduplicate`) are not part of the
sources; per the spec they are external collaborators consumed as
Graph → Graph functions, so they are taken here as opaque parameters
`semHash` and `llmStep`.  The control flow around them — the empty-graph
short circuit, the strategy dispatch and the unknown-strategy
`ValueError` — is translated from the source. -/
def dedup_cluster_graph (semHash llmStep : Graph → Graph)
    (hash : Label → Label) (strategy : DeduplicationStrategy) (g : Graph) :
    Except String Graph :=
  if g.entities = [] ∧ g.edges = [] then .ok emptyGraph
  else
    match strategy with
    | .deterministic => .ok (llmStep (applyDetDedupGraph hash g))
    | .semantic_hash => .ok (llmStep (semHash g))
    | .both => .ok (llmStep (semHash (applyDetDedupGraph hash g)))
    | .other => .error "Unknown deduplication strategy"

/-! ## Reference definition of deterministic dedup (claim C6)

The reference definition follows the claim's words: labels processed in
input order, each normalized; the first label of each normalization class
is appended to the unique list in original form; later labels of a seen
class are recorded in the duplicate map against that first label.  It
replaces the digest comparison of the source by direct comparison of
normalized labels. -/

structure RefState where
  uniqueItems : List Label
  dupMap : List (Label × Label)
deriving DecidableEq, Repr

/-- One step of the reference definition: look for an already-kept label
with the same normalization; if found it is the canonical form. -/
def refStep (opts : DedupOptions) (st : RefState) (item : Label) : RefState :=
  match st.uniqueItems.find? (fun y => decide (normalize opts y = normalize opts item)) with
  | some canonical => { st with dupMap := upsert st.dupMap item canonical }
  | none => { st with uniqueItems := st.uniqueItems ++ [item] }

/-- Reference deterministic dedup, written from the claim's words. -/
def refDedup (opts : DedupOptions) (items : List Label) :
    List Label × List (Label × Label) :=
  let st := items.foldl (refStep opts) ⟨[], []⟩
  (st.uniqueItems, st.dupMap)

/-! ## ClusterEngine (`cluster_graph.py`)

`runner.predict_json` is modelled by an `Oracle`: four functions indexed
by a per-`cluster_items`-run call counter.  `.error ()` models a raised
exception inside the call, `.ok none` an unparseable response, and
`.ok (some a)` a parsed answer.  Answer lists are passed through
`List.dedup` where the Python code applies `set(...)`. -/

structure Cluster where
  representative : Label
  members : List Label
deriving DecidableEq, Repr

structure Oracle where
  propose : Nat → List Label → Except Unit (Option (List Label))
  validate : Nat → List Label → Except Unit (Option (List Label))
  chooseRep : Nat → List Label → Except Unit (Option Label)
  batchAssign : Nat → List Label → List Cluster → Except Unit (Option (List (Option Label)))

/-- State of the phase-A discovery loop:  `remaining`, the growing
cluster list, the consecutive-stall counter `no_progress_count`, and the
oracle-call counter `t`. -/
structure StateA where
  remaining : List Label
  clusters : List Cluster
  stall : Nat
  t : Nat
deriving Repr

/-- Model of `LOOP_N` in `cluster_graph.py`. -/
def LOOP_N : Nat := 8

/-- Model of `BATCH_SIZE` in `cluster_graph.py`. -/
def BATCH_SIZE : Nat := 10

/-- The phase-A `while len(remaining_items) > 0` loop of `cluster_items`,
with explicit fuel (`none` = the loop has not finished within `fuel`
iterations).  One fuel unit is one loop iteration.

Per iteration: ask `propose` on `remaining`; if the (deduplicated)
suggestion is non-empty ask `validate` on it; if the validated set has
size > 1, reset the stall counter, ask `chooseRep`, append the new
cluster and drop the validated members from `remaining`; otherwise
increment the stall counter and stop once it reaches `LOOP_N`.  A raised
oracle call propagates (no `try` around these calls); `chooseRep`
answering `None` raises inside the pydantic `Cluster` constructor
(`representative` is typed `str`), modelled as `.error ()`. -/
def phaseA (O : Oracle) : Nat → StateA → Option (Except Unit StateA)
  | 0, _ => none
  | fuel + 1, s =>
    if s.remaining.isEmpty then some (.ok s)
    else
      match O.propose s.t s.remaining with
      | .error _ => some (.error ())
      | .ok ans =>
        let suggested := (ans.getD []).dedup
        let t1 := s.t + 1
        if 0 < suggested.length then
          match O.validate t1 suggested with
          | .error _ => some (.error ())
          | .ok vans =>
            let validated := (vans.getD []).dedup
            let t2 := t1 + 1
            if 1 < validated.length then
              match O.chooseRep t2 validated with
              | .error _ => some (.error ())
              | .ok none => some (.error ())
              | .ok (some rep) =>
                phaseA O fuel
                  ⟨s.remaining.filter (fun x => decide (x ∉ validated)),
                   s.clusters ++ [⟨rep, validated⟩], 0, t2 + 1⟩
            else
              if LOOP_N ≤ s.stall + 1 then
                some (.ok ⟨s.remaining, s.clusters, s.stall + 1, t2⟩)
              else phaseA O fuel ⟨s.remaining, s.clusters, s.stall + 1, t2⟩
        else
          if LOOP_N ≤ s.stall + 1 then
            some (.ok ⟨s.remaining, s.clusters, s.stall + 1, t1⟩)
          else phaseA O fuel ⟨s.remaining, s.clusters, s.stall + 1, t1⟩

/-- Model of `{c.representative: c for c in clusters}` followed by a key lookup:
the dict keeps the last cluster object for a repeated representative. -/
def findRepLast : List Cluster → Label → Option Cluster
  | [], _ => none
  | c :: rest, rep =>
    match findRepLast rest rep with
    | some d => some d
    | none => if c.representative = rep then some c else none

/-- Python `set.add` on a members list. -/
def insertAbsent (l : List Label) (x : Label) : List Label :=
  if x ∈ l then l else l ++ [x]

/-- Model of `cluster_map[assigned_rep].members.add(item)`: add `item` to the
members of the last cluster carrying `rep` (the object the dict maps
`rep` to); no-op when no cluster carries `rep`. -/
def addMemberLast : List Cluster → Label → Label → List Cluster
  | [], _, _ => []
  | c :: rest, rep, item =>
    if rest.any (fun d => decide (d.representative = rep)) then
      c :: addMemberLast rest rep item
    else if c.representative = rep then
      { c with members := insertAbsent c.members item } :: rest
    else c :: rest

/-- Model of `item not in cluster_map`, i.e. whether some cluster carries the
label as its representative. -/
def repExists (cs : List Cluster) (x : Label) : Bool :=
  cs.any (fun c => decide (c.representative = x))

/-- The per-item branch of the phase-B assignment loop.  Returns the
assigned representative (or `none`) and the updated call counter.  Only
the merge re-validation call sits inside `try/except`, so its `.error`
is absorbed into `none`. -/
def assignOne (O : Oracle) (clusters : List Cluster) (item : Label)
    (rep? : Option Label) (t : Nat) : Option Label × Nat :=
  match rep? with
  | none => (none, t)
  | some rep =>
    match findRepLast clusters rep with
    | none => (none, t)
    | some target =>
      if item = target.representative ∨ item ∈ target.members then
        (some target.representative, t)
      else
        let potential := insertAbsent target.members item
        match O.validate t potential with
        | .error _ => (none, t + 1)
        | .ok vans =>
          let validated := (vans.getD []).dedup
          if item ∈ validated ∧ validated.length = potential.length then
            (some target.representative, t + 1)
          else (none, t + 1)

/-- The `for i, item in enumerate(batch)` loop building
`item_assignments` (insertion order = batch order); `reps` is
`cluster_reps`, indexed positionally with out-of-range treated as
`None`. -/
def computeAssignments (O : Oracle) (clusters : List Cluster) :
    List Label → List (Option Label) → Nat → List (Label × Option Label) × Nat
  | [], _, t => ([], t)
  | item :: rest, reps, t =>
    let rep? : Option Label := match reps with | [] => none | r :: _ => r
    let p := assignOne O clusters item rep? t
    let q := computeAssignments O clusters rest reps.tail p.2
    ((item, p.1) :: q.1, q.2)

/-- The third phase-B loop: create a singleton cluster for each collected
item unless a cluster with that representative meanwhile exists. -/
def addSingles : List Cluster → List Label → List Cluster
  | cs, [] => cs
  | cs, i :: rest =>
    if repExists cs i then addSingles cs rest
    else addSingles (cs ++ [⟨i, [i]⟩]) rest

/-- The second phase-B loop: add each item with an accepted assignment to
the member set of its target cluster, in batch order. -/
def applyAssignments (as : List (Label × Option Label)) (cs : List Cluster) :
    List Cluster :=
  as.foldl (fun cs p =>
    match p.2 with
    | some rep => addMemberLast cs rep p.1
    | none => cs) cs

structure StateB where
  clusters : List Cluster
  t : Nat
deriving Repr

/-- One phase-B batch.  If no clusters exist yet every batch item becomes
its own singleton.  Otherwise `batch_assign` is asked (a raised call
propagates; an unparseable answer acts as all-`None`), assignments are
computed, accepted items are added to their clusters' member sets, and
the leftovers that are not already representatives become singletons. -/
def processBatch (O : Oracle) (batch : List Label) (st : StateB) :
    Except Unit StateB :=
  if st.clusters.isEmpty then
    .ok ⟨st.clusters ++ batch.map (fun i => ⟨i, [i]⟩), st.t⟩
  else
    match O.batchAssign st.t batch st.clusters with
    | .error _ => .error ()
    | .ok ans =>
      let reps := ans.getD (batch.map (fun _ => none))
      let aq := computeAssignments O st.clusters batch reps (st.t + 1)
      let cs1 := applyAssignments aq.1 st.clusters
      let newItems := (aq.1.filter (fun p =>
        decide (p.2 = none) && !repExists st.clusters p.1)).map (·.1)
      .ok ⟨addSingles cs1 newItems, aq.2⟩

/-- The phase-B batch loop, recursing on a step counter so that the
definition reduces structurally; `phaseB` instantiates the counter with
the pending-list length, which each step shrinks by `BATCH_SIZE ≥ 1`, so
the zero case is never reached with a non-empty list. -/
def phaseBAux (O : Oracle) : Nat → List Label → StateB → Except Unit StateB
  | _, [], st => .ok st
  | 0, _ :: _, st => .ok st
  | n + 1, x :: xs, st =>
    match processBatch O ((x :: xs).take BATCH_SIZE) st with
    | .error e => .error e
    | .ok st1 => phaseBAux O n ((x :: xs).drop BATCH_SIZE) st1

/-- The phase-B batch loop over `items_to_process` in chunks of
`BATCH_SIZE`. -/
def phaseB (O : Oracle) (pending : List Label) (st : StateB) :
    Except Unit StateB :=
  phaseBAux O pending.length pending st

/-- Model of `final_clusters_dict = {c.representative: c.members for c in clusters}`:
a later cluster with the same representative overwrites the stored
member set. -/
def clustersToDict (cs : List Cluster) : List (Label × List Label) :=
  cs.foldl (fun d c => upsert d c.representative c.members) []

/-- Model of `cluster_items(runner, items, item_type, context)`: phase A with the
given fuel, then phase B on the leftovers, then output assembly.
Returns `none` when phase A exceeds `fuel` loop iterations, otherwise
the `(new_items, final_clusters_dict)` pair or the propagated
exception. -/
def clusterItems (O : Oracle) (fuel : Nat) (items : List Label) :
    Option (Except Unit (List Label × List (Label × List Label))) :=
  match phaseA O fuel ⟨items, [], 0, 0⟩ with
  | none => none
  | some (.error e) => some (.error e)
  | some (.ok sA) =>
    match phaseB O sA.remaining ⟨sA.clusters, sA.t⟩ with
    | .error e => some (.error e)
    | .ok sB =>
      let dict := clustersToDict sB.clusters
      some (.ok (dict.map (·.1), dict))

/-- Relation-component relabeling inside `cluster_graph`: a component
already in the final set is kept; otherwise the cluster dict is scanned
in insertion order for the first cluster containing it and its
representative is substituted; a component found nowhere is kept
unchanged. -/
def relabelOne (finalSet : List Label) (clusters : List (Label × List Label))
    (x : Label) : Label :=
  if x ∈ finalSet then x
  else
    match clusters.find? (fun p => decide (x ∈ p.2)) with
    | some p => p.1
    | none => x

/-- Model of `cluster_graph(runner, graph, context)`: cluster entities and edges
independently, then rewrite every relation componentwise and add it to
the output relation set unconditionally. -/
def cluster_graph (O : Oracle) (fuel : Nat) (g : Graph) :
    Option (Except Unit Graph) :=
  match clusterItems O fuel g.entities with
  | none => none
  | some (.error e) => some (.error e)
  | some (.ok ec) =>
    match clusterItems O fuel g.edges with
    | none => none
    | some (.error e) => some (.error e)
    | some (.ok dc) =>
      let rels := g.relations.map (fun r =>
        (relabelOne ec.1 ec.2 r.1, relabelOne dc.1 dc.2 r.2.1,
         relabelOne ec.1 ec.2 r.2.2))
      some (.ok ⟨ec.1, dc.1, rels, ec.2, dc.2⟩)

/-! ## Concrete labels, oracles and graphs used as test inputs -/

def labA : Label := "a".toList

def labB : Label := "b".toList

def labC : Label := "c".toList

def labD : Label := "d".toList

def labP : Label := "p".toList

def labR : Label := "R".toList

def labX : Label := "x".toList

def labY : Label := "y".toList

/-- An oracle that groups a,b and then c,d but names both clusters "R":
the second cluster overwrites the first in the final dict. -/
def oracleCollide : Oracle where
  propose := fun _ q =>
    if q = [labA, labB, labC, labD] then .ok (some [labA, labB])
    else if q = [labC, labD] then .ok (some [labC, labD])
    else .ok none
  validate := fun _ q =>
    if q = [labA, labB] then .ok (some [labA, labB])
    else if q = [labC, labD] then .ok (some [labC, labD])
    else .ok none
  chooseRep := fun _ _ => .ok (some labR)
  batchAssign := fun _ _ _ => .ok none

/-- An oracle whose validated clusters never intersect the remaining
items: every phase-A iteration resets the stall counter without removing
anything, so the discovery loop never exits. -/
def oracleLoop : Oracle where
  propose := fun _ _ => .ok (some [labX, labY])
  validate := fun _ _ => .ok (some [labX, labY])
  chooseRep := fun _ _ => .ok (some labX)
  batchAssign := fun _ _ _ => .ok none

/-- An oracle whose first propose call raises. -/
def oracleRaise : Oracle where
  propose := fun _ _ => .error ()
  validate := fun _ _ => .ok none
  chooseRep := fun _ _ => .ok none
  batchAssign := fun _ _ _ => .ok none

/-- An oracle that clusters a,b in phase A and then raises on every later
validate call: the raising phase-B merge re-validation is caught and item
c falls back to a singleton. -/
def oracleCatch : Oracle where
  propose := fun _ q => if q = [labA, labB, labC] then .ok (some [labA, labB]) else .ok none
  validate := fun _ q => if q = [labA, labB] then .ok (some [labA, labB]) else .error ()
  chooseRep := fun _ _ => .ok (some labA)
  batchAssign := fun _ _ _ => .ok (some [some labA])

/-- An oracle whose every answer is unparseable. -/
def oracleNone : Oracle where
  propose := fun _ _ => .ok none
  validate := fun _ _ => .ok none
  chooseRep := fun _ _ => .ok none
  batchAssign := fun _ _ _ => .ok none

/-- An oracle that never raises and always answers chooseRep. -/
def oracleTotal : Oracle where
  propose := fun _ _ => .ok none
  validate := fun _ _ => .ok none
  chooseRep := fun _ _ => .ok (some labA)
  batchAssign := fun _ _ _ => .ok none

/-- Input graph for the referential-integrity counterexample: it
satisfies the Graph invariant (a ∈ entities, p ∈ edges). -/
def graphC1 : Graph := ⟨[labA, labB, labC, labD], [labP], [(labA, labP, labA)], [], []⟩

/-- The graph `cluster_graph oracleCollide 100 graphC1` actually
returns. -/
def graphC1out : Graph :=
  ⟨[labR], [labP], [(labA, labP, labA)], [(labR, [labC, labD])], [(labP, [labP])]⟩

/-- The spec's concrete scenario graph for deterministic dedup. -/
def graphDet : Graph :=
  ⟨["Alice".toList, "alice".toList, "Bob".toList, "BOB".toList],
   ["knows".toList, "KNOWS".toList],
   [("Alice".toList, "knows".toList, "Bob".toList),
    ("alice".toList, "KNOWS".toList, "BOB".toList)], [], []⟩

/-! ## Verification predicates -/

/-- Invariant of the deterministic-dedup fold relating the state to the
already-processed prefix `done`: kept labels and duplicate-map keys come
from `done`, and no duplicate-map key is a kept label. -/
def DetKeyInv (done : List Label) (st : DetState) : Prop :=
  (∀ u ∈ st.uniqueItems, u ∈ done) ∧
  (∀ k v, assocFind st.dupMap k = some v → k ∈ done) ∧
  (∀ k v, assocFind st.dupMap k = some v → k ∉ st.uniqueItems)

/-- The label occurs in the member set of some cluster of the list. -/
def MemOf (cs : List Cluster) (x : Label) : Prop :=
  ∃ c ∈ cs, x ∈ c.members

/-- Structural health of a cluster list: every representative is a member
of its own cluster, member lists are duplicate-free, and member sets of
distinct clusters are disjoint. -/
def GoodClusters (cs : List Cluster) : Prop :=
  (∀ c ∈ cs, c.representative ∈ c.members ∧ c.members.Nodup) ∧
  cs.Pairwise (fun c d => ∀ x, x ∈ c.members → x ∉ d.members)

/-- Invariant of the clustering engine: the not-yet-clustered labels
`pending` are duplicate-free and foreign to every cluster, the cluster
list is healthy, and every input label is clustered or pending. -/
def EngineInv (items pending : List Label) (cs : List Cluster) : Prop :=
  pending.Nodup ∧ GoodClusters cs ∧
  (∀ x ∈ pending, ¬ MemOf cs x) ∧
  (∀ x ∈ items, MemOf cs x ∨ x ∈ pending)

/-! ## Theorems -/

/-! ### Association-list lemmas -/

theorem assocFind_upsert_self (d : List (Label × Label)) (k v : Label) :
    assocFind (upsert d k v) k = some v := by
  induction d with
  | nil => simp [upsert, assocFind]
  | cons p rest ih =>
    obtain ⟨k', v'⟩ := p
    by_cases h : k' = k
    · simp [upsert, assocFind, h]
    · simp [upsert, assocFind, h, ih]

theorem assocFind_upsert_ne (d : List (Label × Label)) (k v key : Label)
    (hne : key ≠ k) :
    assocFind (upsert d k v) key = assocFind d key := by
  induction d with
  | nil =>
    simp only [upsert, assocFind]
    rw [if_neg (fun h : k = key => hne h.symm)]
  | cons p rest ih =>
    obtain ⟨k', v'⟩ := p
    by_cases h : k' = k
    · subst h
      simp only [upsert, if_pos rfl, assocFind]
      rw [if_neg (fun h2 : k' = key => hne h2.symm),
          if_neg (fun h2 : k' = key => hne h2.symm)]
    · by_cases h2 : k' = key
      · subst h2
        simp [upsert, assocFind, h]
      · simp [upsert, assocFind, h, h2, ih]

theorem assocFind_graph_none (f : Label → Label) (l : List Label) (k : Label) :
    assocFind (l.map (fun y => (f y, y))) k = none ↔ k ∉ l.map f := by
  induction l with
  | nil => simp [assocFind]
  | cons u rest ih =>
    by_cases h : f u = k
    · simp [assocFind, h]
    · simp only [List.map_cons, assocFind, if_neg h, ih, List.mem_cons]
      constructor
      · intro hn hc
        rcases hc with hc | hc
        · exact h hc.symm
        · exact hn hc
      · intro hn hc
        exact hn (Or.inr hc)

theorem assocFind_hash_map (f n : Label → Label)
    (hinj : ∀ a b, f (n a) = f (n b) → n a = n b) (l : List Label) (x : Label) :
    assocFind (l.map (fun y => (f (n y), y))) (f (n x)) =
      l.find? (fun y => decide (n y = n x)) := by
  induction l with
  | nil => rfl
  | cons u rest ih =>
    by_cases h : n u = n x
    · simp [assocFind, List.find?, h]
    · have h2 : ¬ f (n u) = f (n x) := fun hc => h (hinj u x hc)
      simp [assocFind, List.find?, h, h2, ih]

/-! ### Deterministic dedup: fold invariants -/

theorem detStep_eq_dup (hash : Label → Label) (opts : DedupOptions)
    (st : DetState) (item canonical : Label)
    (hc : assocFind st.seen (hash (normalize opts item)) = some canonical) :
    detStep hash opts st item =
      { st with dupMap := upsert st.dupMap item canonical } := by
  simp only [detStep, hc]

theorem detStep_eq_new (hash : Label → Label) (opts : DedupOptions)
    (st : DetState) (item : Label)
    (hc : assocFind st.seen (hash (normalize opts item)) = none) :
    detStep hash opts st item =
      { st with seen := st.seen ++ [(hash (normalize opts item), item)],
                uniqueItems := st.uniqueItems ++ [item] } := by
  simp only [detStep, hc]

/-- Under an injective digest the deterministic fold agrees step by step
with the reference fold that compares normalized labels directly. -/
theorem detFold_eq_refFold (hash : Label → Label)
    (hinj : Function.Injective hash) (opts : DedupOptions) :
    ∀ (items u : List Label) (d : List (Label × Label)),
      items.foldl (detStep hash opts)
        ⟨u.map (fun y => (hash (normalize opts y), y)), u, d⟩ =
      ⟨((items.foldl (refStep opts) ⟨u, d⟩).uniqueItems).map
          (fun y => (hash (normalize opts y), y)),
       (items.foldl (refStep opts) ⟨u, d⟩).uniqueItems,
       (items.foldl (refStep opts) ⟨u, d⟩).dupMap⟩ := by
  intro items
  induction items with
  | nil => intro u d; rfl
  | cons item rest ih =>
    intro u d
    have hfind := assocFind_hash_map hash (normalize opts)
      (fun a b h => hinj h) u item
    simp only [List.foldl_cons]
    have hstep : detStep hash opts
        ⟨u.map (fun y => (hash (normalize opts y), y)), u, d⟩ item =
        match refStep opts ⟨u, d⟩ item with
        | ⟨u', d'⟩ => ⟨u'.map (fun y => (hash (normalize opts y), y)), u', d'⟩ := by
      simp only [detStep, refStep, hfind]
      cases hc : u.find? (fun y => decide (normalize opts y = normalize opts item)) with
      | none => simp
      | some c => simp
    rw [hstep]
    cases hr : refStep opts ⟨u, d⟩ item with
    | mk u' d' =>
      rw [ih u' d']

/-- Under an injective digest, deterministic dedup computes the reference
dedup. -/
theorem dedupDet_eq_refDedup (hash : Label → Label)
    (hinj : Function.Injective hash) (opts : DedupOptions)
    (items : List Label) :
    dedupDet hash opts items = refDedup opts items := by
  have h := detFold_eq_refFold hash hinj opts items [] []
  simp only [List.map_nil] at h
  simp only [dedupDet, refDedup, h]

/-- C6: deterministic dedup equals its reference definition — under an
injective digest the code's hash-based fold computes exactly the
reference dedup (labels processed in input order, first occurrence of a
normalization class kept in original form, later occurrences mapped to
it); empty input yields ([], {}); the concrete Stanford/MIT scenario
evaluates as specified. -/
theorem deterministic_dedup_matches_reference (hash : Label → Label)
    (hinj : Function.Injective hash) (opts : DedupOptions)
    (items : List Label) :
    dedupDet hash opts items = refDedup opts items ∧
    dedupDet hash opts [] = ([], []) ∧
    dedupDet hash defaultOpts
      ["Stanford University".toList, "stanford university".toList,
       "MIT".toList] =
      (["Stanford University".toList, "MIT".toList],
       [("stanford university".toList, "Stanford University".toList)]) := by
  refine ⟨dedupDet_eq_refDedup hash hinj opts items, rfl, ?_⟩
  rw [dedupDet_eq_refDedup hash hinj defaultOpts]
  rfl

theorem deterministic_dedup_matches_reference_witness :
    dedupDet id defaultOpts
      ["Stanford University".toList, "stanford university".toList,
       "MIT".toList] =
      refDedup defaultOpts
        ["Stanford University".toList, "stanford university".toList,
         "MIT".toList] ∧
    dedupDet id defaultOpts [] = ([], []) ∧
    dedupDet id defaultOpts
      ["Stanford University".toList, "stanford university".toList,
       "MIT".toList] =
      (["Stanford University".toList, "MIT".toList],
       [("stanford university".toList, "Stanford University".toList)]) :=
  deterministic_dedup_matches_reference id (fun a b h => h) defaultOpts
    ["Stanford University".toList, "stanford university".toList,
     "MIT".toList]

/-- C10: the semantic method is an identity placeholder — for every input
list, `EntityDeduplicator.deduplicate` with method SEMANTIC, and the
`deduplicate_entities` convenience function with method "semantic",
return exactly the input list unchanged and an empty duplicate map,
performing no merging at all. -/
theorem semantic_method_is_identity (hash : Label → Label)
    (opts : DedupOptions) (items : List Label) :
    deduplicate .semantic hash opts items = .ok (items, []) ∧
    deduplicate_entities ("semantic".toList) hash opts items = .ok (items, []) := by
  exact ⟨rfl, rfl⟩

/-- C9 counterexample: with an empty input graph and a strategy value
outside the enum, `dedup_cluster_graph` does not raise — the empty-graph
short circuit fires first and produces the empty-graph result, so the
configuration error is not raised before a short-circuit result is
produced. -/
theorem unknown_strategy_not_raised_on_empty_graph :
    dedup_cluster_graph id id id .other emptyGraph = .ok emptyGraph := by
  exact rfl

/-- C9 amended: an unknown method/strategy raises a configuration error
before any dedup work or oracle call — always for
`EntityDeduplicator.deduplicate`, and for `dedup_cluster_graph` on every
graph with at least one entity or edge; for the empty graph the
empty-graph short circuit returns first without raising. -/
theorem unknown_strategy_fails_fast (semHash llmStep : Graph → Graph)
    (hash : Label → Label) (g : Graph) (opts : DedupOptions)
    (items : List Label) (hne : ¬(g.entities = [] ∧ g.edges = [])) :
    dedup_cluster_graph semHash llmStep hash .other g =
      .error "Unknown deduplication strategy" ∧
    deduplicate .other hash opts items =
      .error "Unknown deduplication method" := by
  refine ⟨?_, rfl⟩
  simp only [dedup_cluster_graph, if_neg hne]

theorem unknown_strategy_fails_fast_witness :
    dedup_cluster_graph id id id .other graphC1 =
      .error "Unknown deduplication strategy" ∧
    deduplicate .other id defaultOpts [labA] =
      .error "Unknown deduplication method" :=
  unknown_strategy_fails_fast id id id graphC1 defaultOpts [labA] (by decide)

/-- C5 counterexample: on input ["A", "A"] the deterministic deduplicator
records the later textually-identical label as a duplicate of itself, so
the duplicate map holds the canonical label "A" (a member of the unique
list) as a key. -/
theorem self_duplicate_is_recorded :
    dedupDet id defaultOpts ["A".toList, "A".toList] =
      (["A".toList], [("A".toList, "A".toList)]) ∧
    "A".toList ∈ (dedupDet id defaultOpts ["A".toList, "A".toList]).1 ∧
    assocFind (dedupDet id defaultOpts ["A".toList, "A".toList]).2 "A".toList =
      some "A".toList := by
  exact ⟨rfl, by decide, rfl⟩

/-- C2 counterexample: under an oracle whose two validated clusters get
the same chosen representative "R", the second cluster overwrites the
first in the returned dict, so input labels a and b appear in no cluster
of the map returned by `cluster_items` — they are lost. -/
theorem cluster_coverage_violated :
    clusterItems oracleCollide 100 [labA, labB, labC, labD] =
      some (.ok ([labR], [(labR, [labC, labD])])) ∧
    labA ∈ [labA, labB, labC, labD] ∧
    [(labR, [labC, labD])].countP
      (fun q => decide (labA = q.1 ∨ labA ∈ q.2)) = 0 := by
  refine ⟨?_, by decide, by decide⟩
  rfl

/-- C3 counterexample: under an oracle whose validated clusters (size 2)
never intersect the remaining set, every phase-A iteration resets the
stall counter without shrinking `remaining`, so on the single-item input
[a] the discovery loop is still running after 50 iterations even though
the claimed bound is 8 + ceil(1/10) = 9 rounds. -/
theorem cluster_items_exceeds_claimed_round_bound :
    clusterItems oracleLoop 50 [labA] = none ∧
    LOOP_N + (1 + BATCH_SIZE - 1) / BATCH_SIZE < 50 := by
  refine ⟨?_, by decide⟩
  rfl

/-- C4 counterexample: a raised propose call (network failure in
`predict_json`) is not caught anywhere in `cluster_items` and propagates
out as an exception instead of being treated as "no answer". -/
theorem oracle_failure_propagates :
    clusterItems oracleRaise 10 [labA, labB] = some (.error ()) := by
  exact rfl

/-- C1 counterexample: on an invariant-satisfying input graph,
`cluster_graph` emits the relabeled triple (a, p, a) unconditionally even
though a resolves to no final entity (the oracle named both entity
clusters "R", so a's cluster was overwritten in the dict): the output
relation references a label outside the output entity set, and the triple
is not dropped. -/
theorem cluster_graph_integrity_violated :
    cluster_graph oracleCollide 100 graphC1 = some (.ok graphC1out) ∧
    (labA, labP, labA) ∈ graphC1out.relations ∧
    labA ∉ graphC1out.entities := by
  refine ⟨?_, by decide, by decide⟩
  rfl

/-- In the reference fold, every duplicate-map value has the same
normalization as its key. -/
theorem refFold_dup_norm (opts : DedupOptions) :
    ∀ (items : List Label) (st : RefState),
      (∀ k v, assocFind st.dupMap k = some v →
        normalize opts v = normalize opts k) →
      ∀ k v, assocFind ((items.foldl (refStep opts) st).dupMap) k = some v →
        normalize opts v = normalize opts k := by
  intro items
  induction items with
  | nil => exact fun st h => h
  | cons item rest ih =>
    intro st h
    simp only [List.foldl_cons]
    apply ih
    intro k v hkv
    unfold refStep at hkv
    cases hc : st.uniqueItems.find?
        (fun y => decide (normalize opts y = normalize opts item)) with
    | none => rw [hc] at hkv; exact h k v hkv
    | some c =>
      rw [hc] at hkv
      simp only at hkv
      by_cases hk : k = item
      · subst hk
        rw [assocFind_upsert_self] at hkv
        have hcv : c = v := by injection hkv
        subst hcv
        have := List.find?_some hc
        simpa using this
      · rw [assocFind_upsert_ne _ _ _ _ hk] at hkv
        exact h k v hkv

/-- C7: deterministic dedup merges exactly case/whitespace variants —
for a label and a variant with the same default normalization, the pair
dedups to the first label with the variant mapped to it; and in general a
duplicate is only ever mapped to a canonical with its own normalization,
so labels differing by more than case/whitespace are never merged. -/
theorem deterministic_dedup_merges_exactly_variants (hash : Label → Label)
    (hinj : Function.Injective hash) (L L2 : Label)
    (hvar : normalize defaultOpts L = normalize defaultOpts L2) (hne : L ≠ L2)
    (items : List Label) (x c : Label)
    (hdup : assocFind (dedupDet hash defaultOpts items).2 x = some c) :
    dedupDet hash defaultOpts [L, L2] = ([L], [(L2, L)]) ∧
    normalize defaultOpts c = normalize defaultOpts x := by
  constructor
  · rw [dedupDet_eq_refDedup hash hinj defaultOpts]
    simp [refDedup, refStep, List.find?, hvar, upsert]
  · rw [dedupDet_eq_refDedup hash hinj defaultOpts] at hdup
    refine refFold_dup_norm defaultOpts items ⟨[], []⟩ ?_ x c hdup
    intro k v hkv
    simp [assocFind] at hkv

theorem deterministic_dedup_merges_exactly_variants_witness :
    dedupDet id defaultOpts
      ["Stanford University".toList, "stanford university".toList] =
      (["Stanford University".toList],
       [("stanford university".toList, "Stanford University".toList)]) ∧
    normalize defaultOpts "Stanford University".toList =
      normalize defaultOpts "stanford university".toList :=
  deterministic_dedup_merges_exactly_variants id (fun a b h => h)
    "Stanford University".toList "stanford university".toList
    (by decide) (by decide)
    ["Stanford University".toList, "stanford university".toList]
    "stanford university".toList "Stanford University".toList (by decide)

/-- The deterministic fold keeps kept labels and duplicate keys inside
the processed prefix, and never lets a duplicate key be a kept label,
provided the whole input is duplicate-free. -/
theorem detFold_key_inv (hash : Label → Label) (opts : DedupOptions) :
    ∀ (items done : List Label) (st : DetState),
      (done ++ items).Nodup → DetKeyInv done st →
      DetKeyInv (done ++ items) (items.foldl (detStep hash opts) st) := by
  intro items
  induction items with
  | nil => intro done st _ h; simpa using h
  | cons item rest ih =>
    intro done st hnd h
    obtain ⟨h1, h2, h3⟩ := h
    have hitem : item ∉ done := by
      intro hc
      exact List.disjoint_of_nodup_append hnd hc (List.mem_cons_self item rest)
    have hassoc : (done ++ item :: rest) = (done ++ [item]) ++ rest := by
      simp
    rw [List.foldl_cons]
    rw [hassoc] at hnd ⊢
    cases hc : assocFind st.seen (hash (normalize opts item)) with
    | some canonical =>
      rw [detStep_eq_dup hash opts st item canonical hc]
      apply ih (done ++ [item]) _ hnd
      refine ⟨fun u hu => List.mem_append_left _ (h1 u hu), ?_, ?_⟩
      · intro k v hkv
        simp only at hkv
        by_cases hk : k = item
        · subst hk; simp
        · rw [assocFind_upsert_ne _ _ _ _ hk] at hkv
          exact List.mem_append_left _ (h2 k v hkv)
      · intro k v hkv
        simp only at hkv
        by_cases hk : k = item
        · subst hk
          exact fun hu => hitem (h1 k hu)
        · rw [assocFind_upsert_ne _ _ _ _ hk] at hkv
          exact h3 k v hkv
    | none =>
      rw [detStep_eq_new hash opts st item hc]
      apply ih (done ++ [item]) _ hnd
      refine ⟨?_, ?_, ?_⟩
      · intro u hu
        simp only [List.mem_append] at hu ⊢
        rcases hu with hu | hu
        · exact Or.inl (h1 u hu)
        · simp at hu
          exact Or.inr (by simp [hu])
      · intro k v hkv
        exact List.mem_append_left _ (h2 k v hkv)
      · intro k v hkv
        have hkdone := h2 k v hkv
        simp only [List.mem_append]
        intro hu
        rcases hu with hu | hu
        · exact h3 k v hkv hu
        · simp at hu
          subst hu
          exact hitem hkdone

/-- C5 amended: on a duplicate-free input sequence (as produced from a
Python set) no key of the duplicate map is a canonical label; when the
input repeats a label textually, the later occurrence is recorded as a
duplicate of itself, contrary to the claim. -/
theorem dupmap_keys_not_canonical (hash : Label → Label)
    (opts : DedupOptions) (items : List Label) (hnd : items.Nodup)
    (x c : Label) (hx : assocFind (dedupDet hash opts items).2 x = some c) :
    x ∉ (dedupDet hash opts items).1 := by
  have h := detFold_key_inv hash opts items [] ⟨[], [], []⟩ (by simpa)
    ⟨by intro u hu; simp at hu, by intro k v hkv; simp [assocFind] at hkv,
     by intro k v hkv; simp [assocFind] at hkv⟩
  exact h.2.2 x c hx

theorem dupmap_keys_not_canonical_witness :
    ["Stanford University".toList, "stanford university".toList,
     "MIT".toList].Nodup ∧
    "stanford university".toList ∉
      (dedupDet id defaultOpts
        ["Stanford University".toList, "stanford university".toList,
         "MIT".toList]).1 :=
  ⟨by decide,
   dupmap_keys_not_canonical id defaultOpts
     ["Stanford University".toList, "stanford university".toList,
      "MIT".toList] (by decide) "stanford university".toList
     "Stanford University".toList (by decide)⟩

/-- The seen map is exactly the digest graph of the kept labels, and the
kept labels have pairwise distinct digests. -/
theorem detFold_seen_shape (hash : Label → Label) (opts : DedupOptions) :
    ∀ (items : List Label) (st : DetState),
      st.seen = st.uniqueItems.map
        (fun y => (hash (normalize opts y), y)) →
      (st.uniqueItems.map (fun y => hash (normalize opts y))).Nodup →
      (items.foldl (detStep hash opts) st).seen =
        ((items.foldl (detStep hash opts) st).uniqueItems).map
          (fun y => (hash (normalize opts y), y)) ∧
      (((items.foldl (detStep hash opts) st).uniqueItems).map
          (fun y => hash (normalize opts y))).Nodup := by
  intro items
  induction items with
  | nil => exact fun st h1 h2 => ⟨h1, h2⟩
  | cons item rest ih =>
    intro st h1 h2
    rw [List.foldl_cons]
    cases hc : assocFind st.seen (hash (normalize opts item)) with
    | some canonical =>
      rw [detStep_eq_dup hash opts st item canonical hc]
      exact ih _ h1 h2
    | none =>
      rw [detStep_eq_new hash opts st item hc]
      rw [h1] at hc
      have hfresh : hash (normalize opts item) ∉
          st.uniqueItems.map (fun y => hash (normalize opts y)) :=
        (assocFind_graph_none
          (fun y => hash (normalize opts y)) st.uniqueItems
          (hash (normalize opts item))).mp hc
      apply ih
      · simp [h1]
      · simp only [List.map_append, List.map_cons, List.map_nil]
        exact List.Nodup.append h2 (List.nodup_singleton _)
          (by simpa [List.disjoint_cons_right] using hfresh)

/-- Running the deterministic fold over labels whose digests are pairwise
fresh keeps every label and records no duplicates. -/
theorem detFold_fresh (hash : Label → Label) (opts : DedupOptions) :
    ∀ (l pfx : List Label),
      ((pfx ++ l).map (fun y => hash (normalize opts y))).Nodup →
      l.foldl (detStep hash opts)
        ⟨pfx.map (fun y => (hash (normalize opts y), y)), pfx, []⟩ =
      ⟨(pfx ++ l).map (fun y => (hash (normalize opts y), y)), pfx ++ l, []⟩ := by
  intro l
  induction l with
  | nil => intro pfx _; simp
  | cons x xs ih =>
    intro pfx hnd
    have hfresh : hash (normalize opts x) ∉
        pfx.map (fun y => hash (normalize opts y)) := by
      intro hc
      have : ¬ (pfx.map (fun y => hash (normalize opts y))).Disjoint
          ((x :: xs).map (fun y => hash (normalize opts y))) := by
        intro hdisj
        exact hdisj hc (by simp)
      rw [List.map_append] at hnd
      exact this (List.disjoint_of_nodup_append hnd)
    rw [List.foldl_cons]
    rw [detStep_eq_new hash opts _ x
      ((assocFind_graph_none (fun y => hash (normalize opts y)) pfx
        (hash (normalize opts x))).mpr hfresh)]
    have hre : (pfx ++ x :: xs) = ((pfx ++ [x]) ++ xs) := by simp
    rw [hre] at hnd
    have hih := ih (pfx ++ [x]) hnd
    simp only [List.map_append, List.map_cons, List.map_nil] at hih ⊢
    convert hih using 2 <;> simp

/-- C8: idempotence of deterministic dedup — re-running the deterministic
deduplicator on its own unique output returns that list unchanged with an
empty duplicate map, for every digest function and options. -/
theorem deterministic_dedup_idempotent (hash : Label → Label)
    (opts : DedupOptions) (items : List Label) :
    dedupDet hash opts (dedupDet hash opts items).1 =
      ((dedupDet hash opts items).1, []) := by
  have hshape := detFold_seen_shape hash opts items ⟨[], [], []⟩ (by simp)
    (by simp)
  have hfresh := detFold_fresh hash opts
    (items.foldl (detStep hash opts) ⟨[], [], []⟩).uniqueItems []
    (by simpa using hshape.2)
  simp only [List.map_nil, List.nil_append] at hfresh
  simp only [dedupDet]
  rw [hfresh]

/-- C1 amended: referential integrity holds for the deterministic dedup
step — every relation in the graph returned by
`_apply_deterministic_deduplication_to_graph` has its subject and object
in the output entity set and its predicate in the output edge set, and a
triple failing this check is dropped; `cluster_graph`, by contrast, adds
every relabeled triple unconditionally (see the counterexample), so the
claim's integrity guarantee does not extend to the clustering step. -/
theorem det_dedup_graph_integrity (hash : Label → Label) (g : Graph)
    (s p o : Label)
    (hmem : (s, p, o) ∈ (applyDetDedupGraph hash g).relations) :
    s ∈ (applyDetDedupGraph hash g).entities ∧
    p ∈ (applyDetDedupGraph hash g).edges ∧
    o ∈ (applyDetDedupGraph hash g).entities := by
  simp only [applyDetDedupGraph, List.mem_filterMap] at hmem ⊢
  obtain ⟨r, _, hf⟩ := hmem
  by_cases hcond : ((assocFind (dedupDet hash defaultOpts g.entities).2 r.1).getD r.1
        ∈ (dedupDet hash defaultOpts g.entities).1 ∧
      (assocFind (dedupDet hash defaultOpts g.edges).2 r.2.1).getD r.2.1
        ∈ (dedupDet hash defaultOpts g.edges).1 ∧
      (assocFind (dedupDet hash defaultOpts g.entities).2 r.2.2).getD r.2.2
        ∈ (dedupDet hash defaultOpts g.entities).1)
  · rw [if_pos hcond] at hf
    simp only [Option.some.injEq, Prod.mk.injEq] at hf
    obtain ⟨h1, h2, h3⟩ := hf
    exact ⟨h1 ▸ hcond.1, h2 ▸ hcond.2.1, h3 ▸ hcond.2.2⟩
  · rw [if_neg hcond] at hf
    exact absurd hf (by simp)

theorem det_dedup_graph_integrity_witness :
    ("Alice".toList, "knows".toList, "Bob".toList) ∈
      (applyDetDedupGraph id graphDet).relations ∧
    "Alice".toList ∈ (applyDetDedupGraph id graphDet).entities ∧
    "knows".toList ∈ (applyDetDedupGraph id graphDet).edges ∧
    "Bob".toList ∈ (applyDetDedupGraph id graphDet).entities :=
  ⟨by decide,
   det_dedup_graph_integrity id graphDet "Alice".toList "knows".toList
     "Bob".toList (by decide)⟩

/-! ### Phase A: termination -/

theorem length_filter_lt (p : Label → Bool) (l : List Label) (x : Label)
    (hx : x ∈ l) (hp : p x = false) : (l.filter p).length < l.length := by
  induction l with
  | nil => cases hx
  | cons y ys ih =>
    rcases List.mem_cons.mp hx with rfl | hx2
    · rw [List.filter_cons, if_neg (by simp [hp])]
      exact Nat.lt_succ_of_le (List.length_filter_le _ _)
    · by_cases hy : p y
      · rw [List.filter_cons, if_pos hy]
        exact Nat.succ_lt_succ (ih hx2)
      · rw [List.filter_cons, if_neg hy]
        exact Nat.lt_succ_of_lt (ih hx2)

/-- Phase A finishes within fuel exceeding the measure
`9 * |remaining| + (8 - stall)` whenever every parsed propose/validate
answer is a subset of the corresponding query. -/
theorem phaseA_terminates (O : Oracle)
    (hP : ∀ t q l, O.propose t q = .ok (some l) → l ⊆ q)
    (hV : ∀ t q l, O.validate t q = .ok (some l) → l ⊆ q) :
    ∀ (fuel : Nat) (s : StateA),
      9 * s.remaining.length + (8 - s.stall) < fuel →
      phaseA O fuel s ≠ none := by
  intro fuel
  induction fuel with
  | zero => intro s h; omega
  | succ n ih =>
    intro s hlt
    rw [phaseA]
    by_cases hre : s.remaining.isEmpty
    · simp [hre]
    · rw [if_neg hre]
      cases hp : O.propose s.t s.remaining with
      | error e => simp
      | ok ans =>
        simp only
        by_cases hs : 0 < ((ans.getD []).dedup).length
        · rw [if_pos hs]
          cases hv : O.validate (s.t + 1) ((ans.getD []).dedup) with
          | error e => simp
          | ok vans =>
            simp only
            by_cases hval : 1 < ((vans.getD []).dedup).length
            · rw [if_pos hval]
              cases hr : O.chooseRep (s.t + 1 + 1) ((vans.getD []).dedup) with
              | error e => simp
              | ok rep? =>
                cases rep? with
                | none => simp
                | some rep =>
                  simp only
                  apply ih
                  simp only
                  -- the validated set is a non-empty subset of remaining
                  have hansome : ∃ la, ans = some la := by
                    cases ans with
                    | none => simp [List.dedup_nil] at hs
                    | some la => exact ⟨la, rfl⟩
                  obtain ⟨la, rfl⟩ := hansome
                  have hvsome : ∃ lv, vans = some lv := by
                    cases vans with
                    | none => simp [List.dedup_nil] at hval
                    | some lv => exact ⟨lv, rfl⟩
                  obtain ⟨lv, rfl⟩ := hvsome
                  have hsub : ((some lv).getD []).dedup ⊆ s.remaining := by
                    intro y hy
                    have h1 : y ∈ lv := List.dedup_subset lv hy
                    have h2 : y ∈ (((some la).getD []).dedup) := hV _ _ _ hv h1
                    have h3 : y ∈ la := List.dedup_subset la h2
                    exact hP _ _ _ hp h3
                  have hex : ∃ y, y ∈ ((some lv).getD []).dedup := by
                    cases hll : ((some lv).getD []).dedup with
                    | nil => rw [hll] at hval; simp at hval
                    | cons z zs => exact ⟨z, by simp [hll]⟩
                  obtain ⟨y, hy⟩ := hex
                  have hflt : (s.remaining.filter
                      (fun x => decide (x ∉ ((some lv).getD []).dedup))).length
                      < s.remaining.length :=
                    length_filter_lt _ _ y (hsub hy)
                      (by rw [decide_eq_false_iff_not]; exact fun hn => hn hy)
                  omega
            · rw [if_neg hval]
              by_cases hstall : LOOP_N ≤ s.stall + 1
              · simp [hstall]
              · rw [if_neg hstall]
                apply ih
                simp only [LOOP_N] at hstall
                simp only
                omega
        · rw [if_neg hs]
          by_cases hstall : LOOP_N ≤ s.stall + 1
          · simp [hstall]
          · rw [if_neg hstall]
            apply ih
            simp only [LOOP_N] at hstall
            simp only
            omega

/-- C3 amended: `cluster_items` terminates within `9·|items| + 9` phase-A
loop iterations, for every oracle whose parsed propose/validate answers
are subsets of the corresponding query (plus `ceil` of the leftover count
over 10 phase-B batches, which always terminate); for an oracle whose
validated answers lie outside the remaining set, phase A need not
terminate at all, and even for well-behaved oracles the claimed bound
`8 + ceil(|items|/10)` can be exceeded. -/
theorem cluster_items_terminates (O : Oracle)
    (hP : ∀ t q l, O.propose t q = .ok (some l) → l ⊆ q)
    (hV : ∀ t q l, O.validate t q = .ok (some l) → l ⊆ q)
    (items : List Label) :
    clusterItems O (9 * items.length + 9) items ≠ none := by
  unfold clusterItems
  cases hA : phaseA O (9 * items.length + 9) ⟨items, [], 0, 0⟩ with
  | none =>
    exact absurd hA (phaseA_terminates O hP hV _ _ (by simp only; omega))
  | some r =>
    cases r with
    | error e => simp
    | ok sA =>
      cases hb : phaseB O sA.remaining ⟨sA.clusters, sA.t⟩ <;>
        simp only [hb] <;> simp

theorem cluster_items_terminates_witness :
    clusterItems oracleNone (9 * [labA].length + 9) [labA] ≠ none :=
  cluster_items_terminates oracleNone
    (by intro t q l h; simp [oracleNone] at h)
    (by intro t q l h; simp [oracleNone] at h) [labA]

/-- Supporting fact for the C3 counterexample: under `oracleLoop` the
phase-A loop never finishes, for any amount of fuel. -/
theorem phaseA_oracleLoop_diverges :
    ∀ (fuel : Nat) (s : StateA), s.remaining = [labA] →
      phaseA oracleLoop fuel s = none := by
  intro fuel
  induction fuel with
  | zero => intro s _; rfl
  | succ n ih =>
    intro s hs
    rw [phaseA]
    rw [if_neg (by simp [hs])]
    show (match oracleLoop.propose s.t s.remaining with
      | .error _ => some (.error ())
      | .ok ans => _) = none
    simp only [oracleLoop]
    rw [if_pos (by decide), if_pos (by decide)]
    apply ih
    simp [hs]
    decide

/-! ### Oracle failures -/

/-- Phase A never produces an error when the oracle never raises and
chooseRep always parses to a non-None answer. -/
theorem phaseA_no_error (O : Oracle)
    (hP : ∀ t q, O.propose t q ≠ .error ())
    (hV : ∀ t q, O.validate t q ≠ .error ())
    (hR : ∀ t q, O.chooseRep t q ≠ .error () ∧ O.chooseRep t q ≠ .ok none) :
    ∀ (fuel : Nat) (s : StateA), phaseA O fuel s ≠ some (.error ()) := by
  intro fuel
  induction fuel with
  | zero => intro s h; simp [phaseA] at h
  | succ n ih =>
    intro s
    rw [phaseA]
    by_cases hre : s.remaining.isEmpty
    · simp [hre]
    · rw [if_neg hre]
      cases hp : O.propose s.t s.remaining with
      | error e => cases e; exact absurd hp (hP _ _)
      | ok ans =>
        simp only
        by_cases hs : 0 < ((ans.getD []).dedup).length
        · rw [if_pos hs]
          cases hv : O.validate (s.t + 1) ((ans.getD []).dedup) with
          | error e => cases e; exact absurd hv (hV _ _)
          | ok vans =>
            simp only
            by_cases hval : 1 < ((vans.getD []).dedup).length
            · rw [if_pos hval]
              cases hr : O.chooseRep (s.t + 1 + 1) ((vans.getD []).dedup) with
              | error e => cases e; exact absurd hr (hR _ _).1
              | ok rep? =>
                cases rep? with
                | none => exact absurd hr (hR _ _).2
                | some rep => exact ih _
            · rw [if_neg hval]
              by_cases hstall : LOOP_N ≤ s.stall + 1
              · simp [hstall]
              · rw [if_neg hstall]; exact ih _
        · rw [if_neg hs]
          by_cases hstall : LOOP_N ≤ s.stall + 1
          · simp [hstall]
          · rw [if_neg hstall]; exact ih _

/-- A batch step errors only when batch_assign raises; the per-item merge
re-validation sits inside try/except and its failures are absorbed. -/
theorem processBatch_no_error (O : Oracle)
    (hB : ∀ t b cs, O.batchAssign t b cs ≠ .error ())
    (batch : List Label) (st : StateB) :
    processBatch O batch st ≠ .error () := by
  unfold processBatch
  by_cases hcs : st.clusters.isEmpty
  · simp [hcs]
  · rw [if_neg hcs]
    cases hb : O.batchAssign st.t batch st.clusters with
    | error e => cases e; exact absurd hb (hB _ _ _)
    | ok ans => simp

theorem phaseBAux_no_error (O : Oracle)
    (hB : ∀ t b cs, O.batchAssign t b cs ≠ .error ()) :
    ∀ (n : Nat) (pending : List Label) (st : StateB),
      phaseBAux O n pending st ≠ .error () := by
  intro n
  induction n with
  | zero =>
    intro pending st
    cases pending <;> simp [phaseBAux]
  | succ m ih =>
    intro pending st
    cases pending with
    | nil => simp [phaseBAux]
    | cons x xs =>
      rw [phaseBAux]
      cases hpb : processBatch O ((x :: xs).take BATCH_SIZE) st with
      | error e => cases e; exact absurd hpb (processBatch_no_error O hB _ _)
      | ok st1 => exact ih _ _

/-- C4 amended: an unparseable (None) answer from propose, validate or
batch-assign is treated as an empty answer and the run continues — if no
oracle call raises and choose-representative always parses, cluster_items
never returns an error; a raised phase-B merge re-validation call is
likewise caught (demonstrated by the oracleCatch run, where every
validate call after phase A raises and item c falls back to a singleton);
but a raised propose/validate/choose-representative/batch-assign call, or
a None answer from choose-representative, does propagate out of
`cluster_items` (see the counterexample). -/
theorem oracle_parse_failures_not_fatal (O : Oracle)
    (hP : ∀ t q, O.propose t q ≠ .error ())
    (hV : ∀ t q, O.validate t q ≠ .error ())
    (hR : ∀ t q, O.chooseRep t q ≠ .error () ∧ O.chooseRep t q ≠ .ok none)
    (hB : ∀ t b cs, O.batchAssign t b cs ≠ .error ())
    (fuel : Nat) (items : List Label) :
    clusterItems O fuel items ≠ some (.error ()) ∧
    clusterItems oracleCatch 20 [labA, labB, labC] =
      some (.ok ([labA, labC], [(labA, [labA, labB]), (labC, [labC])])) := by
  refine ⟨?_, rfl⟩
  unfold clusterItems
  cases hA : phaseA O fuel ⟨items, [], 0, 0⟩ with
  | none => simp
  | some r =>
    cases r with
    | error e =>
      cases e
      exact absurd hA (phaseA_no_error O hP hV hR fuel _)
    | ok sA =>
      cases hb : phaseB O sA.remaining ⟨sA.clusters, sA.t⟩ with
      | error e =>
        cases e
        exact absurd hb (phaseBAux_no_error O hB _ _ _)
      | ok sB => simp only [hb]; simp

theorem oracle_parse_failures_not_fatal_witness :
    clusterItems oracleTotal 12 [labA] ≠ some (.error ()) ∧
    clusterItems oracleCatch 20 [labA, labB, labC] =
      some (.ok ([labA, labC], [(labA, [labA, labB]), (labC, [labC])])) :=
  oracle_parse_failures_not_fatal oracleTotal
    (fun t q h => Except.noConfusion h)
    (fun t q h => Except.noConfusion h)
    (fun t q => ⟨fun h => Except.noConfusion h,
      fun h => Option.noConfusion (Except.ok.inj h)⟩)
    (fun t b cs h => Except.noConfusion h) 12 [labA]

/-! ### Cluster coverage: structural lemmas -/

theorem mem_insertAbsent (l : List Label) (x y : Label) :
    y ∈ insertAbsent l x ↔ y ∈ l ∨ y = x := by
  unfold insertAbsent
  by_cases h : x ∈ l
  · simp only [if_pos h]
    constructor
    · exact Or.inl
    · rintro (hy | rfl) <;> [exact hy; exact h]
  · simp [if_neg h]

theorem insertAbsent_nodup (l : List Label) (x : Label) (h : l.Nodup) :
    (insertAbsent l x).Nodup := by
  unfold insertAbsent
  by_cases hx : x ∈ l
  · simpa [if_pos hx]
  · rw [if_neg hx]
    exact List.Nodup.append h (List.nodup_singleton x)
      (by simpa [List.disjoint_cons_right] using hx)

theorem repExists_iff (cs : List Cluster) (x : Label) :
    repExists cs x = true ↔ ∃ c ∈ cs, c.representative = x := by
  unfold repExists
  simp

theorem findRepLast_mem (cs : List Cluster) (rep : Label) (c : Cluster)
    (h : findRepLast cs rep = some c) :
    c ∈ cs ∧ c.representative = rep := by
  induction cs with
  | nil => cases h
  | cons d rest ih =>
    unfold findRepLast at h
    cases hr : findRepLast rest rep with
    | some e =>
      rw [hr] at h
      injection h with h
      subst h
      exact ⟨List.mem_cons_of_mem _ (ih hr).1, (ih hr).2⟩
    | none =>
      rw [hr] at h
      by_cases hd : d.representative = rep
      · rw [if_pos hd] at h
        injection h with h
        subst h
        exact ⟨List.mem_cons_self _ _, hd⟩
      · rw [if_neg hd] at h
        cases h

theorem addMemberLast_eq_of_not_exists (cs : List Cluster) (rep it : Label)
    (h : repExists cs rep = false) : addMemberLast cs rep it = cs := by
  induction cs with
  | nil => rfl
  | cons c rest ih =>
    unfold repExists at h
    simp only [List.any_cons, Bool.or_eq_false_iff] at h
    unfold addMemberLast
    rw [if_neg (by simp [h.2]), if_neg (by simpa using h.1)]

theorem addMemberLast_split_of_exists (cs : List Cluster) (rep it : Label)
    (h : repExists cs rep = true) :
    ∃ l1 c l2, cs = l1 ++ c :: l2 ∧ c.representative = rep ∧
      addMemberLast cs rep it =
        l1 ++ ({ c with members := insertAbsent c.members it }) :: l2 := by
  induction cs with
  | nil => simp [repExists] at h
  | cons c rest ih =>
    by_cases hrest : rest.any (fun d => decide (d.representative = rep))
    · obtain ⟨l1, e, l2, he1, he2, he3⟩ := ih (by simpa [repExists] using hrest)
      refine ⟨c :: l1, e, l2, by simp [he1], he2, ?_⟩
      unfold addMemberLast
      rw [if_pos hrest, he3]
      simp
    · unfold repExists at h
      simp only [List.any_cons, Bool.or_eq_true] at h
      have hc : c.representative = rep := by
        rcases h with h | h
        · simpa using h
        · exact absurd h (by simpa using hrest)
      refine ⟨[], c, rest, by simp, hc, ?_⟩
      unfold addMemberLast
      rw [if_neg (by simpa using hrest), if_pos hc]
      simp

theorem addMemberLast_reps (cs : List Cluster) (rep it : Label) :
    (addMemberLast cs rep it).map (fun c => c.representative) =
      cs.map (fun c => c.representative) := by
  by_cases h : repExists cs rep
  · obtain ⟨l1, c, l2, h1, _, h3⟩ := addMemberLast_split_of_exists cs rep it h
    rw [h3, h1]
    simp
  · rw [addMemberLast_eq_of_not_exists cs rep it (by simpa using h)]

theorem memOf_append (cs ds : List Cluster) (y : Label) :
    MemOf (cs ++ ds) y ↔ MemOf cs y ∨ MemOf ds y := by
  unfold MemOf
  constructor
  · rintro ⟨c, hc, hy⟩
    rcases List.mem_append.mp hc with h | h
    · exact Or.inl ⟨c, h, hy⟩
    · exact Or.inr ⟨c, h, hy⟩
  · rintro (⟨c, hc, hy⟩ | ⟨c, hc, hy⟩)
    · exact ⟨c, List.mem_append_left _ hc, hy⟩
    · exact ⟨c, List.mem_append_right _ hc, hy⟩

theorem memOf_cons (c : Cluster) (cs : List Cluster) (y : Label) :
    MemOf (c :: cs) y ↔ y ∈ c.members ∨ MemOf cs y := by
  unfold MemOf
  constructor
  · rintro ⟨d, hd, hy⟩
    rcases List.mem_cons.mp hd with rfl | hd
    · exact Or.inl hy
    · exact Or.inr ⟨d, hd, hy⟩
  · rintro (hy | ⟨d, hd, hy⟩)
    · exact ⟨c, List.mem_cons_self _ _, hy⟩
    · exact ⟨d, List.mem_cons_of_mem _ hd, hy⟩

theorem addMemberLast_memOf (cs : List Cluster) (rep it : Label) (y : Label)
    (h : repExists cs rep = true) :
    MemOf (addMemberLast cs rep it) y ↔ MemOf cs y ∨ y = it := by
  obtain ⟨l1, c, l2, h1, _, h3⟩ := addMemberLast_split_of_exists cs rep it h
  rw [h3, h1]
  simp only [memOf_append, memOf_cons, mem_insertAbsent]
  tauto

theorem repExists_eq_mem_map (cs : List Cluster) (x : Label) :
    repExists cs x = true ↔ x ∈ cs.map (fun c => c.representative) := by
  rw [repExists_iff]
  simp only [List.mem_map]

theorem addMemberLast_good (cs : List Cluster) (rep it : Label)
    (hg : GoodClusters cs) (hit : ∀ c ∈ cs, it ∉ c.members) :
    GoodClusters (addMemberLast cs rep it) := by
  by_cases h : repExists cs rep
  · obtain ⟨l1, c, l2, h1, _, h3⟩ := addMemberLast_split_of_exists cs rep it h
    rw [h3]
    subst h1
    obtain ⟨hg1, hg2⟩ := hg
    constructor
    · intro d hd
      rcases List.mem_append.mp hd with hd | hd
      · exact hg1 d (List.mem_append_left _ hd)
      · rcases List.mem_cons.mp hd with rfl | hd
        · refine ⟨(mem_insertAbsent _ _ _).mpr (Or.inl ?_),
            insertAbsent_nodup _ _ ?_⟩
          · exact (hg1 c (by simp)).1
          · exact (hg1 c (by simp)).2
        · exact hg1 d (List.mem_append_right _ (List.mem_cons_of_mem _ hd))
    · rw [List.pairwise_append] at hg2 ⊢
      obtain ⟨hp1, hp2, hp3⟩ := hg2
      rw [List.pairwise_cons] at hp2 ⊢
      refine ⟨hp1, ⟨?_, hp2.2⟩, ?_⟩
      · intro b hb x hx
        rcases (mem_insertAbsent _ _ _).mp hx with hx | rfl
        · exact hp2.1 b hb x hx
        · exact hit b (List.mem_append_right _ (List.mem_cons_of_mem _ hb))
      · intro a ha b hb
        rcases List.mem_cons.mp hb with rfl | hb
        · intro x hx hmem
          rcases (mem_insertAbsent _ _ _).mp hmem with hm | rfl
          · exact hp3 a ha c (by simp) x hx hm
          · exact hit a (List.mem_append_left _ ha) hx
        · exact hp3 a ha b (List.mem_cons_of_mem _ hb)
  · rw [addMemberLast_eq_of_not_exists cs rep it (by simpa using h)]
    exact hg

theorem reps_nodup_of_good (cs : List Cluster) (hg : GoodClusters cs) :
    (cs.map (fun c => c.representative)).Nodup := by
  have : List.Pairwise
      (fun a b : Cluster => a.representative ≠ b.representative) cs := by
    refine hg.2.imp_of_mem ?_
    intro a b ha hb hR heq
    have h2 := (hg.1 b hb).1
    exact hR b.representative (heq ▸ (hg.1 a ha).1) h2
  exact (List.pairwise_map).mpr this

theorem singletons_good (batch : List Label) (hnd : batch.Nodup) :
    GoodClusters (batch.map (fun i => (⟨i, [i]⟩ : Cluster))) := by
  constructor
  · intro c hc
    obtain ⟨i, _, rfl⟩ := List.mem_map.mp hc
    simp
  · rw [List.pairwise_map]
    refine hnd.imp ?_
    intro a b hab x hx hxb
    simp only at hx hxb
    rw [List.mem_singleton] at hx hxb
    exact hab (hx.symm.trans hxb |>.symm ▸ rfl)

theorem addSingles_facts :
    ∀ (ns : List Label) (cs : List Cluster),
      GoodClusters cs → ns.Nodup → (∀ i ∈ ns, ¬ MemOf cs i) →
      GoodClusters (addSingles cs ns) ∧
      (∀ y, MemOf (addSingles cs ns) y ↔ MemOf cs y ∨ y ∈ ns) := by
  intro ns
  induction ns with
  | nil => intro cs hg _ _; exact ⟨hg, by simp [addSingles]⟩
  | cons i rest ih =>
    intro cs hg hnd hmem
    have hrep : repExists cs i = false := by
      cases hex : repExists cs i
      · rfl
      · obtain ⟨c, hc, hcr⟩ := (repExists_iff cs i).mp hex
        exact absurd ⟨c, hc, hcr ▸ (hg.1 c hc).1⟩ (hmem i (by simp))
    have hg' : GoodClusters (cs ++ [⟨i, [i]⟩]) := by
      constructor
      · intro d hd
        rcases List.mem_append.mp hd with hd | hd
        · exact hg.1 d hd
        · rw [List.mem_singleton] at hd
          subst hd
          simp
      · rw [List.pairwise_append]
        refine ⟨hg.2, by simp, ?_⟩
        intro a ha b hb x hx hxb
        rw [List.mem_singleton] at hb
        subst hb
        simp only [List.mem_singleton] at hxb
        subst hxb
        exact hmem x (by simp) ⟨a, ha, hx⟩
    have h' := ih (cs ++ [⟨i, [i]⟩]) hg' (List.Nodup.of_cons hnd) (by
      intro j hj hm
      rcases (memOf_append _ _ _).mp hm with hm | hm
      · exact hmem j (List.mem_cons_of_mem _ hj) hm
      · obtain ⟨c, hc, hjc⟩ := hm
        rw [List.mem_singleton] at hc
        subst hc
        rw [List.mem_singleton] at hjc
        subst hjc
        exact (List.nodup_cons.mp hnd).1 hj)
    have hstep : addSingles cs (i :: rest) =
        addSingles (cs ++ [⟨i, [i]⟩]) rest := by
      simp only [addSingles]
      rw [hrep]
      rfl
    rw [hstep]
    refine ⟨h'.1, fun y => ?_⟩
    rw [h'.2 y, memOf_append]
    have hone : MemOf [(⟨i, [i]⟩ : Cluster)] y ↔ y = i := by
      unfold MemOf
      simp
    rw [hone]
    simp only [List.mem_cons]
    tauto

theorem applyAssignments_cons_none (p : Label × Option Label)
    (rest : List (Label × Option Label)) (cs : List Cluster)
    (h : p.2 = none) :
    applyAssignments (p :: rest) cs = applyAssignments rest cs := by
  simp only [applyAssignments, List.foldl_cons, h]

theorem applyAssignments_cons_some (p : Label × Option Label)
    (rest : List (Label × Option Label)) (cs : List Cluster) (r : Label)
    (h : p.2 = some r) :
    applyAssignments (p :: rest) cs =
      applyAssignments rest (addMemberLast cs r p.1) := by
  simp only [applyAssignments, List.foldl_cons, h]

theorem applyAssignments_facts :
    ∀ (as : List (Label × Option Label)) (cs0 : List Cluster),
      GoodClusters cs0 →
      (as.map (fun p => p.1)).Nodup →
      (∀ p ∈ as, ¬ MemOf cs0 p.1) →
      (∀ p ∈ as, ∀ r, p.2 = some r → repExists cs0 r = true) →
      GoodClusters (applyAssignments as cs0) ∧
      (applyAssignments as cs0).map (fun c => c.representative) =
        cs0.map (fun c => c.representative) ∧
      (∀ y, MemOf (applyAssignments as cs0) y ↔
        MemOf cs0 y ∨ ∃ p ∈ as, p.2 ≠ none ∧ y = p.1) := by
  intro as
  induction as with
  | nil =>
    intro cs0 hg _ _ _
    exact ⟨hg, rfl, by simp [applyAssignments]⟩
  | cons p rest ih =>
    intro cs0 hg hnd hmem hrep
    cases hp2 : p.2 with
    | none =>
      rw [applyAssignments_cons_none p rest cs0 hp2]
      have h' := ih cs0 hg (by simpa using List.Nodup.of_cons (by simpa using hnd))
        (fun q hq => hmem q (List.mem_cons_of_mem _ hq))
        (fun q hq => hrep q (List.mem_cons_of_mem _ hq))
      refine ⟨h'.1, h'.2.1, fun y => ?_⟩
      rw [h'.2.2 y]
      constructor
      · rintro (hm | ⟨q, hq, hq2, rfl⟩)
        · exact Or.inl hm
        · exact Or.inr ⟨q, List.mem_cons_of_mem _ hq, hq2, rfl⟩
      · rintro (hm | ⟨q, hq, hq2, rfl⟩)
        · exact Or.inl hm
        · rcases List.mem_cons.mp hq with rfl | hq
          · exact absurd hp2 hq2
          · exact Or.inr ⟨q, hq, hq2, rfl⟩
    | some r =>
      rw [applyAssignments_cons_some p rest cs0 r hp2]
      have hex : repExists cs0 r = true := hrep p (List.mem_cons_self _ _) r hp2
      have hit : ∀ c ∈ cs0, p.1 ∉ c.members :=
        fun c hc hx => hmem p (List.mem_cons_self _ _) ⟨c, hc, hx⟩
      have hgood' := addMemberLast_good cs0 r p.1 hg hit
      have hreps' := addMemberLast_reps cs0 r p.1
      have hmem' : ∀ y, MemOf (addMemberLast cs0 r p.1) y ↔
          MemOf cs0 y ∨ y = p.1 := fun y => addMemberLast_memOf cs0 r p.1 y hex
      have hndtail : (rest.map (fun p => p.1)).Nodup :=
        List.Nodup.of_cons (by simpa using hnd)
      have hhead : p.1 ∉ rest.map (fun p => p.1) :=
        (List.nodup_cons.mp (by simpa using hnd)).1
      have h' := ih (addMemberLast cs0 r p.1) hgood' hndtail
        (by
          intro q hq hm
          rcases (hmem' q.1).mp hm with hm | hq1
          · exact hmem q (List.mem_cons_of_mem _ hq) hm
          · exact hhead (hq1 ▸ List.mem_map_of_mem _ hq))
        (by
          intro q hq r' hq2
          rw [repExists_eq_mem_map, hreps', ← repExists_eq_mem_map]
          exact hrep q (List.mem_cons_of_mem _ hq) r' hq2)
      refine ⟨h'.1, h'.2.1.trans hreps', fun y => ?_⟩
      rw [h'.2.2 y, hmem' y]
      constructor
      · rintro ((hm | rfl) | ⟨q, hq, hq2, rfl⟩)
        · exact Or.inl hm
        · exact Or.inr ⟨p, List.mem_cons_self _ _, by simp [hp2], rfl⟩
        · exact Or.inr ⟨q, List.mem_cons_of_mem _ hq, hq2, rfl⟩
      · rintro (hm | ⟨q, hq, hq2, rfl⟩)
        · exact Or.inl (Or.inl hm)
        · rcases List.mem_cons.mp hq with rfl | hq
          · exact Or.inl (Or.inr rfl)
          · exact Or.inr ⟨q, hq, hq2, rfl⟩

theorem assignOne_some (O : Oracle) (cs : List Cluster) (item : Label)
    (rep? : Option Label) (t : Nat) (r : Label)
    (h : (assignOne O cs item rep? t).1 = some r) :
    repExists cs r = true := by
  unfold assignOne at h
  cases rep? with
  | none => simp at h
  | some rep =>
    dsimp only at h
    cases hf : findRepLast cs rep with
    | none => rw [hf] at h; simp at h
    | some target =>
      rw [hf] at h
      dsimp only at h
      have htm := findRepLast_mem cs rep target hf
      have hrt : repExists cs target.representative = true :=
        (repExists_iff cs _).mpr ⟨target, htm.1, rfl⟩
      by_cases hcond : item = target.representative ∨ item ∈ target.members
      · rw [if_pos hcond] at h
        simp only at h
        injection h with h
        exact h ▸ hrt
      · rw [if_neg hcond] at h
        cases hv : O.validate t (insertAbsent target.members item) with
        | error e => rw [hv] at h; simp at h
        | ok vans =>
          rw [hv] at h
          dsimp only at h
          by_cases hacc : item ∈ (vans.getD []).dedup ∧
              ((vans.getD []).dedup).length =
                (insertAbsent target.members item).length
          · rw [if_pos hacc] at h
            simp only at h
            injection h with h
            exact h ▸ hrt
          · rw [if_neg hacc] at h
            simp at h

theorem computeAssignments_fst (O : Oracle) (cs : List Cluster) :
    ∀ (batch : List Label) (reps : List (Option Label)) (t : Nat),
      (computeAssignments O cs batch reps t).1.map (fun p => p.1) = batch := by
  intro batch
  induction batch with
  | nil => intro reps t; rfl
  | cons item rest ih =>
    intro reps t
    simp only [computeAssignments, List.map_cons]
    rw [ih]

theorem computeAssignments_some_rep (O : Oracle) (cs : List Cluster) :
    ∀ (batch : List Label) (reps : List (Option Label)) (t : Nat)
      (p : Label × Option Label),
      p ∈ (computeAssignments O cs batch reps t).1 →
      ∀ r, p.2 = some r → repExists cs r = true := by
  intro batch
  induction batch with
  | nil => intro reps t p hp; cases hp
  | cons item rest ih =>
    intro reps t p hp r hpr
    simp only [computeAssignments] at hp
    rcases List.mem_cons.mp hp with rfl | hp
    · exact assignOne_some O cs item _ t r hpr
    · exact ih reps.tail _ p hp r hpr

theorem upsert_fresh {β : Type} (d : List (Label × β)) (k : Label) (v : β)
    (h : ∀ p ∈ d, p.1 ≠ k) : upsert d k v = d ++ [(k, v)] := by
  induction d with
  | nil => rfl
  | cons q rest ih =>
    obtain ⟨k', v'⟩ := q
    unfold upsert
    rw [if_neg (h (k', v') (by simp)), ih (fun p hp => h p (List.mem_cons_of_mem _ hp))]
    simp

theorem clustersToDict_eq_map (cs : List Cluster)
    (hnd : (cs.map (fun c => c.representative)).Nodup) :
    clustersToDict cs = cs.map (fun c => (c.representative, c.members)) := by
  have haux : ∀ (cs : List Cluster) (d : List (Label × List Label)),
      (∀ p ∈ d, ∀ c ∈ cs, p.1 ≠ c.representative) →
      (cs.map (fun c => c.representative)).Nodup →
      cs.foldl (fun d c => upsert d c.representative c.members) d =
        d ++ cs.map (fun c => (c.representative, c.members)) := by
    intro cs
    induction cs with
    | nil => intro d _ _; simp
    | cons c rest ih =>
      intro d hd hnd
      rw [List.foldl_cons,
        upsert_fresh d c.representative c.members
          (fun p hp => hd p hp c (List.mem_cons_self _ _))]
      have hnd2 := List.nodup_cons.mp
        (show (c.representative ::
          rest.map (fun c => c.representative)).Nodup by simpa using hnd)
      have hfresh : ∀ p ∈ d ++ [(c.representative, c.members)],
          ∀ c' ∈ rest, p.1 ≠ c'.representative := by
        intro p hp c' hc'
        rcases List.mem_append.mp hp with hp | hp
        · exact hd p hp c' (List.mem_cons_of_mem _ hc')
        · rw [List.mem_singleton] at hp
          subst hp
          intro he
          apply hnd2.1
          have he2 : c'.representative = c.representative := by
            simpa using he.symm
          exact he2 ▸ List.mem_map_of_mem _ hc'
      rw [ih (d ++ [(c.representative, c.members)]) hfresh hnd2.2]
      simp
  have := haux cs [] (by simp) hnd
  simpa [clustersToDict] using this

theorem countP_members_eq_one (cs : List Cluster) (x : Label)
    (hdisj : cs.Pairwise (fun c d => ∀ y, y ∈ c.members → y ∉ d.members))
    (hex : MemOf cs x) :
    cs.countP (fun c => decide (x ∈ c.members)) = 1 := by
  induction cs with
  | nil => obtain ⟨c, hc, _⟩ := hex; cases hc
  | cons c rest ih =>
    rw [List.countP_cons]
    have hp := List.pairwise_cons.mp hdisj
    by_cases hxc : x ∈ c.members
    · have hzero : rest.countP (fun c => decide (x ∈ c.members)) = 0 :=
        List.countP_eq_zero.mpr (fun d hd => by simpa using hp.1 d hd x hxc)
      rw [hzero, if_pos (by simpa using hxc)]
    · have hex2 : MemOf rest x := by
        obtain ⟨d, hd, hxd⟩ := hex
        rcases List.mem_cons.mp hd with rfl | hd
        · exact absurd hxd hxc
        · exact ⟨d, hd, hxd⟩
      rw [ih hp.2 hex2, if_neg (by simpa using hxc)]

theorem countP_dict_eq_one (cs : List Cluster) (x : Label)
    (hg : GoodClusters cs) (hm : MemOf cs x) :
    (clustersToDict cs).countP (fun q => decide (x = q.1 ∨ x ∈ q.2)) = 1 := by
  rw [clustersToDict_eq_map cs (reps_nodup_of_good cs hg), List.countP_map]
  have hcongr : ∀ c ∈ cs,
      (((fun q : Label × List Label => decide (x = q.1 ∨ x ∈ q.2)) ∘
        (fun c : Cluster => (c.representative, c.members))) c = true ↔
      (fun c : Cluster => decide (x ∈ c.members)) c = true) := by
    intro c hc
    simp only [Function.comp_apply, decide_eq_true_eq]
    constructor
    · rintro (rfl | hx)
      · exact (hg.1 c hc).1
      · exact hx
    · exact Or.inr
  rw [List.countP_congr hcongr]
  exact countP_members_eq_one cs x hg.2 hm

/-- One phase-B batch preserves the engine invariant, moving the batch
items from pending into clusters. -/
theorem processBatch_inv (O : Oracle) (items batch rest : List Label)
    (st st' : StateB)
    (hinv : EngineInv items (batch ++ rest) st.clusters)
    (hb : processBatch O batch st = .ok st') :
    EngineInv items rest st'.clusters := by
  obtain ⟨hnd, hg, hpend, hcov⟩ := hinv
  obtain ⟨hndb, hndr, hdisj⟩ := List.nodup_append.mp hnd
  unfold processBatch at hb
  by_cases hcs : st.clusters.isEmpty
  · rw [if_pos hcs] at hb
    have hclnil : st.clusters = [] := List.isEmpty_iff.mp hcs
    injection hb with hb
    subst hb
    refine ⟨hndr, ?_, ?_, ?_⟩
    · show GoodClusters (st.clusters ++ batch.map (fun i => ⟨i, [i]⟩))
      rw [hclnil, List.nil_append]
      exact singletons_good batch hndb
    · intro j hj hm
      rw [show (StateB.mk (st.clusters ++ batch.map (fun i => ⟨i, [i]⟩))
        st.t).clusters = st.clusters ++ batch.map (fun i => ⟨i, [i]⟩) from rfl,
        hclnil, List.nil_append] at hm
      obtain ⟨c, hc, hjc⟩ := hm
      obtain ⟨i, hi, rfl⟩ := List.mem_map.mp hc
      rw [List.mem_singleton] at hjc
      exact hdisj hi (hjc ▸ hj)
    · intro x hx
      rcases hcov x hx with hm | hxp
      · rw [hclnil] at hm
        obtain ⟨c, hc, _⟩ := hm
        cases hc
      · rcases List.mem_append.mp hxp with hxb | hxr
        · exact Or.inl ⟨⟨x, [x]⟩,
            List.mem_append_right _ (List.mem_map_of_mem _ hxb), by simp⟩
        · exact Or.inr hxr
  · rw [if_neg hcs] at hb
    cases hba : O.batchAssign st.t batch st.clusters with
    | error e =>
      rw [hba] at hb
      exact absurd hb (by simp)
    | ok ans =>
      rw [hba] at hb
      dsimp only at hb
      injection hb with hb
      subst hb
      have hfst : ((computeAssignments O st.clusters batch
          (ans.getD (batch.map (fun _ => none))) (st.t + 1)).1.map
            (fun p => p.1)) = batch :=
        computeAssignments_fst O st.clusters batch _ (st.t + 1)
      have hndas : (((computeAssignments O st.clusters batch
          (ans.getD (batch.map (fun _ => none))) (st.t + 1)).1).map
            (fun p => p.1)).Nodup := by
        rw [hfst]; exact hndb
      have hmemas : ∀ p ∈ (computeAssignments O st.clusters batch
          (ans.getD (batch.map (fun _ => none))) (st.t + 1)).1,
          ¬ MemOf st.clusters p.1 := by
        intro p hp
        apply hpend
        apply List.mem_append_left
        rw [← hfst]
        exact List.mem_map_of_mem _ hp
      have hrepas : ∀ p ∈ (computeAssignments O st.clusters batch
          (ans.getD (batch.map (fun _ => none))) (st.t + 1)).1,
          ∀ r, p.2 = some r → repExists st.clusters r = true :=
        fun p hp r h2 =>
          computeAssignments_some_rep O st.clusters batch _ (st.t + 1) p hp r h2
      obtain ⟨hg1, hreps1, hmem1⟩ := applyAssignments_facts
        (computeAssignments O st.clusters batch
          (ans.getD (batch.map (fun _ => none))) (st.t + 1)).1
        st.clusters hg hndas hmemas hrepas
      have hnewsub : ∀ i ∈ ((computeAssignments O st.clusters batch
          (ans.getD (batch.map (fun _ => none))) (st.t + 1)).1.filter
            (fun p => decide (p.2 = none) &&
              !repExists st.clusters p.1)).map (fun p => p.1),
          ∃ p ∈ (computeAssignments O st.clusters batch
            (ans.getD (batch.map (fun _ => none))) (st.t + 1)).1,
            p.1 = i ∧ p.2 = none := by
        intro i hi
        obtain ⟨p, hp, rfl⟩ := List.mem_map.mp hi
        have hpf := List.mem_filter.mp hp
        refine ⟨p, hpf.1, rfl, ?_⟩
        have h2 := hpf.2
        simp only [Bool.and_eq_true, decide_eq_true_eq] at h2
        exact h2.1
      have hndnew : (((computeAssignments O st.clusters batch
          (ans.getD (batch.map (fun _ => none))) (st.t + 1)).1.filter
            (fun p => decide (p.2 = none) &&
              !repExists st.clusters p.1)).map (fun p => p.1)).Nodup :=
        List.Nodup.sublist (List.Sublist.map _ (List.filter_sublist _)) hndas
      have hnewmem : ∀ i ∈ ((computeAssignments O st.clusters batch
          (ans.getD (batch.map (fun _ => none))) (st.t + 1)).1.filter
            (fun p => decide (p.2 = none) &&
              !repExists st.clusters p.1)).map (fun p => p.1),
          ¬ MemOf (applyAssignments (computeAssignments O st.clusters batch
            (ans.getD (batch.map (fun _ => none))) (st.t + 1)).1
              st.clusters) i := by
        intro i hi hm
        obtain ⟨p, hp, rfl, hp2⟩ := hnewsub i hi
        rcases (hmem1 p.1).mp hm with hm | ⟨q, hq, hq2, hq1⟩
        · exact hmemas p hp hm
        · have hqp : q = p := List.inj_on_of_nodup_map hndas hq hp hq1.symm
          subst hqp
          exact hq2 hp2
      obtain ⟨hg2, hmem2⟩ := addSingles_facts _ _ hg1 hndnew hnewmem
      refine ⟨hndr, hg2, ?_, ?_⟩
      · intro j hj hm
        rcases (hmem2 j).mp hm with hm | hj2
        · rcases (hmem1 j).mp hm with hm | ⟨q, hq, _, rfl⟩
          · exact hpend j (List.mem_append_right _ hj) hm
          · exact hdisj (by rw [← hfst]; exact List.mem_map_of_mem _ hq) hj
        · obtain ⟨p, hp, rfl, _⟩ := hnewsub j hj2
          exact hdisj (by rw [← hfst]; exact List.mem_map_of_mem _ hp) hj
      · intro x hx
        rcases hcov x hx with hm | hxp
        · exact Or.inl ((hmem2 x).mpr (Or.inl ((hmem1 x).mpr (Or.inl hm))))
        · rcases List.mem_append.mp hxp with hxb | hxr
          · have hxin : x ∈ ((computeAssignments O st.clusters batch
                (ans.getD (batch.map (fun _ => none))) (st.t + 1)).1.map
                  (fun p => p.1)) := by
              rw [hfst]; exact hxb
            obtain ⟨p, hp, rfl⟩ := List.mem_map.mp hxin
            cases hp2 : p.2 with
            | some r =>
              exact Or.inl ((hmem2 p.1).mpr (Or.inl ((hmem1 p.1).mpr
                (Or.inr ⟨p, hp, by simp [hp2], rfl⟩))))
            | none =>
              have hrepf : repExists st.clusters p.1 = false := by
                cases hre : repExists st.clusters p.1
                · rfl
                · obtain ⟨c, hc, hcr⟩ := (repExists_iff _ _).mp hre
                  exact absurd ⟨c, hc, hcr ▸ (hg.1 c hc).1⟩ (hmemas p hp)
              have hpn : p.1 ∈ ((computeAssignments O st.clusters batch
                  (ans.getD (batch.map (fun _ => none))) (st.t + 1)).1.filter
                    (fun p => decide (p.2 = none) &&
                      !repExists st.clusters p.1)).map (fun p => p.1) := by
                apply List.mem_map_of_mem
                exact List.mem_filter.mpr ⟨hp, by simp [hp2, hrepf]⟩
              exact Or.inl ((hmem2 p.1).mpr (Or.inr hpn))
          · exact Or.inr hxr

theorem phaseBAux_inv (O : Oracle) (items : List Label) :
    ∀ (n : Nat) (pending : List Label) (st st' : StateB),
      pending.length ≤ n →
      EngineInv items pending st.clusters →
      phaseBAux O n pending st = .ok st' →
      GoodClusters st'.clusters ∧ ∀ x ∈ items, MemOf st'.clusters x := by
  intro n
  induction n with
  | zero =>
    intro pending st st' hlen hinv hb
    have hpnil : pending = [] := List.length_eq_zero.mp (Nat.le_zero.mp hlen)
    subst hpnil
    have hst : st = st' := by
      simpa [phaseBAux] using hb
    subst hst
    exact ⟨hinv.2.1, fun x hx => (hinv.2.2.2 x hx).resolve_right (by simp)⟩
  | succ m ih =>
    intro pending st st' hlen hinv hb
    cases pending with
    | nil =>
      have hst : st = st' := by
        simpa [phaseBAux] using hb
      subst hst
      exact ⟨hinv.2.1, fun x hx => (hinv.2.2.2 x hx).resolve_right (by simp)⟩
    | cons x xs =>
      rw [phaseBAux] at hb
      cases hpb : processBatch O ((x :: xs).take BATCH_SIZE) st with
      | error e => rw [hpb] at hb; exact absurd hb (by simp)
      | ok st1 =>
        rw [hpb] at hb
        dsimp only at hb
        have hinv1 : EngineInv items ((x :: xs).drop BATCH_SIZE) st1.clusters := by
          apply processBatch_inv O items ((x :: xs).take BATCH_SIZE)
            ((x :: xs).drop BATCH_SIZE) st st1 ?_ hpb
          rw [List.take_append_drop]
          exact hinv
        apply ih ((x :: xs).drop BATCH_SIZE) st1 st' ?_ hinv1 hb
        have hdrop : ((x :: xs).drop BATCH_SIZE).length =
            (x :: xs).length - BATCH_SIZE := List.length_drop _ _
        rw [hdrop]
        simp only [BATCH_SIZE, List.length_cons] at hlen ⊢
        omega

theorem phaseA_inv (O : Oracle)
    (hP : ∀ t q l, O.propose t q = .ok (some l) → l ⊆ q)
    (hV : ∀ t q l, O.validate t q = .ok (some l) → l ⊆ q)
    (hR : ∀ t q r, O.chooseRep t q = .ok (some r) → r ∈ q)
    (items : List Label) :
    ∀ (fuel : Nat) (s s' : StateA),
      EngineInv items s.remaining s.clusters →
      phaseA O fuel s = some (.ok s') →
      EngineInv items s'.remaining s'.clusters := by
  intro fuel
  induction fuel with
  | zero => intro s s' _ h; cases h
  | succ n ih =>
    intro s s' hinv h
    rw [phaseA] at h
    by_cases hre : s.remaining.isEmpty
    · rw [if_pos hre] at h
      injection h with h
      injection h with h
      subst h
      exact hinv
    · rw [if_neg hre] at h
      cases hp : O.propose s.t s.remaining with
      | error e => rw [hp] at h; exact absurd h (by simp)
      | ok ans =>
        rw [hp] at h
        dsimp only at h
        by_cases hs : 0 < ((ans.getD []).dedup).length
        · rw [if_pos hs] at h
          cases hv : O.validate (s.t + 1) ((ans.getD []).dedup) with
          | error e => rw [hv] at h; exact absurd h (by simp)
          | ok vans =>
            rw [hv] at h
            dsimp only at h
            by_cases hval : 1 < ((vans.getD []).dedup).length
            · rw [if_pos hval] at h
              cases hr : O.chooseRep (s.t + 1 + 1) ((vans.getD []).dedup) with
              | error e => rw [hr] at h; exact absurd h (by simp)
              | ok rep? =>
                cases rep? with
                | none => rw [hr] at h; exact absurd h (by simp)
                | some rep =>
                  rw [hr] at h
                  dsimp only at h
                  apply ih _ s' ?_ h
                  -- invariant for the post-success state
                  obtain ⟨hnd, hg, hpend, hcov⟩ := hinv
                  have hansome : ∃ la, ans = some la := by
                    cases ans with
                    | none => simp at hs
                    | some la => exact ⟨la, rfl⟩
                  obtain ⟨la, rfl⟩ := hansome
                  have hvsome : ∃ lv, vans = some lv := by
                    cases vans with
                    | none => simp at hval
                    | some lv => exact ⟨lv, rfl⟩
                  obtain ⟨lv, rfl⟩ := hvsome
                  have hsub : ((some lv).getD []).dedup ⊆ s.remaining := by
                    intro y hy
                    have h1 : y ∈ lv := List.dedup_subset lv hy
                    have h2 : y ∈ (((some la).getD []).dedup) :=
                      hV _ _ _ hv h1
                    exact hP _ _ _ hp (List.dedup_subset la h2)
                  have hrep : rep ∈ ((some lv).getD []).dedup := hR _ _ _ hr
                  refine ⟨List.Nodup.filter _ hnd, ⟨?_, ?_⟩, ?_, ?_⟩
                  · intro c hc
                    rcases List.mem_append.mp hc with hc | hc
                    · exact hg.1 c hc
                    · rw [List.mem_singleton] at hc
                      subst hc
                      exact ⟨hrep, List.nodup_dedup _⟩
                  · rw [List.pairwise_append]
                    refine ⟨hg.2, by simp, ?_⟩
                    intro a ha b hb y hya hyb
                    rw [List.mem_singleton] at hb
                    subst hb
                    exact hpend y (hsub hyb) ⟨a, ha, hya⟩
                  · intro j hj hm
                    have hjf := List.mem_filter.mp hj
                    have hjv : j ∉ ((some lv).getD []).dedup := by
                      have := hjf.2
                      simpa using this
                    rcases (memOf_append _ _ _).mp hm with hm | hm
                    · exact hpend j hjf.1 hm
                    · obtain ⟨c, hc, hjc⟩ := hm
                      rw [List.mem_singleton] at hc
                      subst hc
                      exact hjv hjc
                  · intro x hx
                    rcases hcov x hx with hm | hxr
                    · exact Or.inl ((memOf_append _ _ _).mpr (Or.inl hm))
                    · by_cases hxv : x ∈ ((some lv).getD []).dedup
                      · exact Or.inl ((memOf_append _ _ _).mpr
                          (Or.inr ⟨⟨rep, ((some lv).getD []).dedup⟩,
                            by simp, hxv⟩))
                      · exact Or.inr (List.mem_filter.mpr
                          ⟨hxr, by simpa using hxv⟩)
            · rw [if_neg hval] at h
              by_cases hstall : LOOP_N ≤ s.stall + 1
              · rw [if_pos hstall] at h
                injection h with h
                injection h with h
                subst h
                exact hinv
              · rw [if_neg hstall] at h
                apply ih _ s' ?_ h
                exact hinv
        · rw [if_neg hs] at h
          by_cases hstall : LOOP_N ≤ s.stall + 1
          · rw [if_pos hstall] at h
            injection h with h
            injection h with h
            subst h
            exact hinv
          · rw [if_neg hstall] at h
            apply ih _ s' ?_ h
            exact hinv

/-- C2 amended: every input label ends up in exactly one cluster of the
map returned by `cluster_items`, for every oracle whose parsed propose
and validate answers are subsets of the corresponding query and whose
chosen representative is always one of the validated members; for fully
arbitrary oracle behavior (representatives outside the members, or
answers outside the query) a label can be lost or duplicated (see the
counterexample). -/
theorem cluster_coverage_of_disciplined_oracle (O : Oracle)
    (hP : ∀ t q l, O.propose t q = .ok (some l) → l ⊆ q)
    (hV : ∀ t q l, O.validate t q = .ok (some l) → l ⊆ q)
    (hR : ∀ t q r, O.chooseRep t q = .ok (some r) → r ∈ q)
    (items : List Label) (hnd : items.Nodup) (fuel : Nat)
    (reps : List Label) (dict : List (Label × List Label))
    (hrun : clusterItems O fuel items = some (.ok (reps, dict)))
    (x : Label) (hx : x ∈ items) :
    dict.countP (fun q => decide (x = q.1 ∨ x ∈ q.2)) = 1 := by
  unfold clusterItems at hrun
  cases hA : phaseA O fuel ⟨items, [], 0, 0⟩ with
  | none => rw [hA] at hrun; exact absurd hrun (by simp)
  | some r =>
    rw [hA] at hrun
    cases r with
    | error e => exact absurd hrun (by simp)
    | ok sA =>
      dsimp only at hrun
      cases hb : phaseB O sA.remaining ⟨sA.clusters, sA.t⟩ with
      | error e => rw [hb] at hrun; exact absurd hrun (by simp)
      | ok sB =>
        rw [hb] at hrun
        dsimp only at hrun
        injection hrun with hrun
        injection hrun with hrun
        have hdict : dict = clustersToDict sB.clusters :=
          (congrArg (fun q => q.2) hrun).symm
        have hinv0 : EngineInv items items ([] : List Cluster) := by
          refine ⟨hnd, ⟨?_, ?_⟩, ?_, ?_⟩
          · intro c hc; cases hc
          · exact List.Pairwise.nil
          · intro j _ hm; obtain ⟨c, hc, _⟩ := hm; cases hc
          · intro y hy; exact Or.inr hy
        have hinvA := phaseA_inv O hP hV hR items fuel _ sA hinv0 hA
        have hfin := phaseBAux_inv O items sA.remaining.length sA.remaining
          ⟨sA.clusters, sA.t⟩ sB (Nat.le_refl _) hinvA hb
        rw [hdict]
        exact countP_dict_eq_one sB.clusters x hfin.1 (hfin.2 x hx)

theorem cluster_coverage_of_disciplined_oracle_witness :
    clusterItems oracleNone 9 [labA] =
      some (.ok ([labA], [(labA, [labA])])) ∧
    [(labA, [labA])].countP
      (fun q => decide (labA = q.1 ∨ labA ∈ q.2)) = 1 :=
  ⟨rfl,
   cluster_coverage_of_disciplined_oracle oracleNone
     (by intro t q l h; simp [oracleNone] at h)
     (by intro t q l h; simp [oracleNone] at h)
     (by intro t q r h; simp [oracleNone] at h)
     [labA] (by decide) 9 [labA] [(labA, [labA])] rfl labA (by decide)⟩

end KgGen
